import Mathlib

/-!
Verification of the genre-clustering and layout engine of the nts-explorer
repository.  The definitions below are a shallow embedding of the TypeScript
source (the `TileCanvas` module holding `buildGenreFrequency`,
`pickTopGenres`, `groupTracksByTopGenres`, `calculateCircularTilePositions`,
`computeGenreEdges`, `packCircles`, `calculateCircleGraphLayout`, and the
`genreLayout.ts` module holding `cosineSimilarity` and
`orderGenresBySimilarity`).

Modelling conventions:
* JavaScript `Map` objects are modelled as insertion-ordered association
  lists (`List (String × α)`); `Map.set` replaces the value of the first
  matching key in place and appends fresh keys at the end, exactly like the
  runtime.
* JavaScript `Array.prototype.sort` (stable since ES2019) is modelled by a
  stable insertion sort `sortBy le` where `le a b` means "the comparator
  keeps `a` before `b`", i.e. `cmp a b ≤ 0`.
* JavaScript numbers are modelled by exact arithmetic: counts and indices by
  `Nat`, geometric quantities by `ℝ`.  Floating-point rounding is out of
  scope; `Math.PI`, `Math.cos`, `Math.sin`, `Math.sqrt` are modelled by the
  exact real functions.
* `String#localeCompare` and JavaScript string comparison are modelled by
  the code-point order on `String` (they agree on the ASCII genre data the
  program handles).
-/

namespace NTS

/-- An input item.  Only the fields the engine inspects are modelled:
`id` and the optional genre-label list `nts_genres` (`null` is `none`). -/
structure Track where
  id : Nat
  nts_genres : Option (List String)
deriving DecidableEq, Repr

/-! ### JavaScript string comparison
`<` and `localeCompare` on JavaScript strings are modelled by the
lexicographic order on the character data (code points; identical to the
runtime's code-unit order on the data the program handles). -/
/-- JavaScript `a < b` on strings. -/
def jsLt (a b : String) : Prop := a.data < b.data

instance : DecidableRel jsLt :=
  fun a b => inferInstanceAs (Decidable (a.data < b.data))

/-- JavaScript `a <= b` on strings (`localeCompare`-order at most 0). -/
def jsLe (a b : String) : Prop := a.data ≤ b.data

instance : DecidableRel jsLe :=
  fun a b => inferInstanceAs (Decidable (a.data ≤ b.data))

/-- JavaScript `toLowerCase`, modelled as character-wise lowercasing of the
string's data. -/
def jsToLower (s : String) : String := ⟨s.data.map Char.toLower⟩

/-! ### Insertion-ordered map (JavaScript `Map`) -/
/-- `Map.get`: value of the first entry with the given key. -/
def getA {α : Type} : List (String × α) → String → Option α
  | [], _ => none
  | (k', v) :: rest, k => if k' = k then some v else getA rest k

/-- `Map.set`: replace the value of the first entry with the given key,
keeping its position; append at the end when the key is fresh. -/
def setFirst {α : Type} : List (String × α) → String → α → List (String × α)
  | [], k, v => [(k, v)]
  | (k', v') :: rest, k, v =>
      if k' = k then (k, v) :: rest else (k', v') :: setFirst rest k v

/-- Keys of a map, in order. -/
def keysOf {α : Type} (m : List (String × α)) : List String :=
  m.map (fun e => e.1)

/-! ### Stable sort (JavaScript `Array.prototype.sort`)
`le a b` means the comparator does not require swapping `a, b` when `a`
precedes `b`, i.e. `cmp a b ≤ 0`.  Insertion that keeps an incoming element
after all earlier elements it ties with models the stability of the runtime
sort. -/
def insertBy {α : Type} (le : α → α → Prop) [DecidableRel le] (a : α) :
    List α → List α
  | [] => [a]
  | b :: bs => if le b a then b :: insertBy le a bs else a :: b :: bs

def sortBy {α : Type} (le : α → α → Prop) [DecidableRel le] (l : List α) :
    List α :=
  l.foldl (fun acc a => insertBy le a acc) []

/-! ### Genre combo grouping (`buildGenreFrequency`, `pickTopGenres`,
`groupTracksByTopGenres`) -/
/-- `MAX_GENRES_PER_TRACK` from the source. -/
def MAX_GENRES_PER_TRACK : Nat := 2

/-- `MIN_COMBO_TRACKS` from the source. -/
def MIN_COMBO_TRACKS : Nat := 5

/-- One step of `buildGenreFrequency`'s inner loop:
`freq.set(key, (freq.get(key) ?? 0) + 1)` with `key = g.toLowerCase()`. -/
def bumpGenre (freq : List (String × Nat)) (g : String) :
    List (String × Nat) :=
  let key := jsToLower g
  setFirst freq key ((getA freq key).getD 0 + 1)

/-- Count how often each genre appears across all tracks. -/
def buildGenreFrequency (tracks : List Track) : List (String × Nat) :=
  tracks.foldl (fun freq t =>
    match t.nts_genres with
    | none => freq
    | some gs => gs.foldl bumpGenre freq) []

/-- `freq.get(g) ?? 0`. -/
def freqOf (freq : List (String × Nat)) (g : String) : Nat :=
  (getA freq g).getD 0

/-- The order imposed by the comparator
`(a, b) => (freq.get(b) ?? 0) - (freq.get(a) ?? 0)` with `localeCompare`
tie-break: `freqLe freq a b` holds when the comparator keeps `a` before
`b` (frequency descending, then code-point order ascending). -/
def freqLe (freq : List (String × Nat)) (a b : String) : Prop :=
  freqOf freq b < freqOf freq a ∨
    (freqOf freq a = freqOf freq b ∧ jsLe a b)

instance (freq : List (String × Nat)) : DecidableRel (freqLe freq) :=
  fun a b => by unfold freqLe; infer_instance

/-- Pick the top N genres for a track by global frequency
(`pickTopGenres` from the source).  `none` models a `null` genre array. -/
def pickTopGenres (genres : Option (List String)) (freq : List (String × Nat))
    (maxGenres : Nat) : List String :=
  match genres with
  | none => []
  | some gs =>
      if gs.length = 0 then []
      else
        let normalized := gs.map jsToLower
        if normalized.length ≤ maxGenres then sortBy jsLe normalized
        else sortBy jsLe ((sortBy (freqLe freq) normalized).take maxGenres)

/-- The value type of the grouping maps: `{ tracks, genres }`. -/
structure ComboGroup where
  tracks : List Track
  genres : List String
deriving DecidableEq, Repr

/-- The combo key: `topGenres.length > 0 ? topGenres.join("/") :
"uncategorized"`. -/
def comboKeyOf (topGenres : List String) : String :=
  if 0 < topGenres.length then String.intercalate "/" topGenres
  else "uncategorized"

/-- First pass of `groupTracksByTopGenres`: create the bucket on demand and
push the track into it. -/
def addTrackToGroups (m : List (String × ComboGroup)) (key : String)
    (topGenres : List String) (t : Track) : List (String × ComboGroup) :=
  match getA m key with
  | some grp => setFirst m key { grp with tracks := grp.tracks ++ [t] }
  | none => setFirst m key { tracks := [t], genres := topGenres }

/-- First pass of `groupTracksByTopGenres`: group by top-2 combo key. -/
def rawGroupsOf (tracks : List Track) (freq : List (String × Nat)) :
    List (String × ComboGroup) :=
  tracks.foldl (fun m t =>
    let topGenres := pickTopGenres t.nts_genres freq MAX_GENRES_PER_TRACK
    addTrackToGroups m (comboKeyOf topGenres) topGenres t) []

/-- Second pass of `groupTracksByTopGenres`: keep a big group under its own
key, or push a small group's tracks into the on-demand `"other"` bucket. -/
def foldSmall (m : List (String × ComboGroup)) (key : String)
    (grp : ComboGroup) (minTracks : Nat) : List (String × ComboGroup) :=
  if minTracks ≤ grp.tracks.length then setFirst m key grp
  else
    match getA m "other" with
    | some og => setFirst m "other" { og with tracks := og.tracks ++ grp.tracks }
    | none => setFirst m "other" { tracks := grp.tracks, genres := [] }

/-- Group tracks by their top-2 genre combo; combos with fewer than
`minTracks` tracks get folded into `"other"` (`groupTracksByTopGenres`
from the source). -/
def groupTracksByTopGenres (tracks : List Track) (minTracks : Nat) :
    List (String × ComboGroup) :=
  let freq := buildGenreFrequency tracks
  let raw := rawGroupsOf tracks freq
  raw.foldl (fun m e => foldSmall m e.1 e.2 minTracks) []

/-- The concatenation of all clusters' member lists. -/
def groupJoin (m : List (String × ComboGroup)) : List Track :=
  (m.map (fun e => e.2.tracks)).flatten

/-! ### Geometry constants -/
def TILE_SIZE : ℝ := 40

def TILE_GAP : ℝ := 4

def RING_GAP : ℝ := 4

def CIRCLE_PADDING : ℝ := 40

/-- `cellSize = TILE_SIZE + TILE_GAP` from
`calculateCircularTilePositions`. -/
def cellSize : ℝ := TILE_SIZE + TILE_GAP

/-! ### Circular tile arrangement (`calculateCircularTilePositions`) -/
/-- A per-member tile position (`CircleTilePosition` from the types). -/
structure CircleTilePosition where
  trackId : Nat
  comboKey : String
  x : ℝ
  y : ℝ
  ring : Nat
  angleIndex : Nat

/-- `ringRadius = ring * (cellSize + RING_GAP)`. -/
def ringRadiusR (ring : Nat) : ℝ := (ring : ℝ) * (cellSize + RING_GAP)

/-- `capacity = Math.max(6, Math.floor(circumference / cellSize))` where
`circumference = 2 * Math.PI * ringRadius`. -/
noncomputable def ringCapacity (ring : Nat) : Nat :=
  max 6 ⌊2 * Real.pi * ringRadiusR ring / cellSize⌋₊

/-- `tracks[i].id` (the loop only reads indices below `tracks.length`). -/
def trackIdAt (tracks : List Track) (i : Nat) : Nat :=
  ((tracks[i]?).map Track.id).getD 0

/-- The `while (placed < tracks.length)` loop of
`calculateCircularTilePositions`: place up to `capacity` tiles on ring
`ring`, then continue on the next ring.  The second component is the
`outerRadius` assigned by the last executed iteration (`0` when the loop
does not run). -/
noncomputable def ringLoop (tracks : List Track) (ck : String)
    (placed ring : Nat) : List CircleTilePosition × ℝ :=
  if h : placed < tracks.length then
    let ringRadius := ringRadiusR ring
    let capacity := ringCapacity ring
    let toPlace := min capacity (tracks.length - placed)
    let newPos := (List.range toPlace).map (fun i =>
      { trackId := trackIdAt tracks (placed + i), comboKey := ck,
        x := Real.cos (2 * Real.pi * (i : ℝ) / (capacity : ℝ)) * ringRadius -
          TILE_SIZE / 2,
        y := Real.sin (2 * Real.pi * (i : ℝ) / (capacity : ℝ)) * ringRadius -
          TILE_SIZE / 2,
        ring := ring, angleIndex := i : CircleTilePosition })
    let rest := ringLoop tracks ck (placed + toPlace) (ring + 1)
    (newPos ++ rest.1,
      if placed + toPlace < tracks.length then rest.2
      else ringRadius + TILE_SIZE / 2)
  else ([], 0)
termination_by tracks.length - placed
decreasing_by
  have h6 : 6 ≤ ringCapacity ring := le_max_left _ _
  have h1 : 1 ≤ min (ringCapacity ring) (tracks.length - placed) :=
    le_min (by omega) (by omega)
  omega

/-- `calculateCircularTilePositions` from the source: center tile at ring 0,
then concentric rings; a single tile gets radius `TILE_SIZE / 2`. -/
noncomputable def calculateCircularTilePositions (tracks : List Track)
    (comboKey : String) : List CircleTilePosition × ℝ :=
  if tracks.length = 0 then ([], 0)
  else
    let center : CircleTilePosition :=
      { trackId := trackIdAt tracks 0, comboKey := comboKey,
        x := -(TILE_SIZE / 2), y := -(TILE_SIZE / 2),
        ring := 0, angleIndex := 0 }
    let rest := ringLoop tracks comboKey 1 1
    (center :: rest.1, if tracks.length = 1 then TILE_SIZE / 2 else rest.2)

/-! ### Edge computation (`computeGenreEdges`) -/
/-- A graph node (`GenreComboNode` from the types). -/
structure GenreComboNode where
  key : String
  genres : List String
  displayLabel : String
  tracks : List Track
  tilePositions : List CircleTilePosition
  radius : ℝ
  cx : ℝ
  cy : ℝ

/-- An edge (`GenreEdge` from the types). -/
structure GenreEdge where
  sourceKey : String
  targetKey : String
  sharedGenres : List String
deriving DecidableEq, Repr

/-- One step of the inverted-index construction: create the entry on demand
and push the node key. -/
def giAdd (m : List (String × List String)) (g : String) (k : String) :
    List (String × List String) :=
  match getA m g with
  | some l => setFirst m g (l ++ [k])
  | none => setFirst m g [k]

/-- The inverted index genre to node keys of `computeGenreEdges`. -/
def buildGenreIndex (nodes : List GenreComboNode) :
    List (String × List String) :=
  nodes.foldl (fun m nd => nd.genres.foldl (fun m g => giAdd m g nd.key) m) []

/-- `edgeKey = a < b ? a + "|" + b : b + "|" + a`. -/
def canonEdgeKey (a b : String) : String :=
  if jsLt a b then a ++ "|" ++ b else b ++ "|" ++ a

/-- All ordered index pairs `i < j` of a list, in the double-loop order of
the source. -/
def pairsOf : List String → List (String × String)
  | [] => []
  | k :: rest => rest.map (fun q => (k, q)) ++ pairsOf rest

/-- `Set.add` on an insertion-ordered set. -/
def setAdd (s : List String) (g : String) : List String :=
  if g ∈ s then s else s ++ [g]

/-- One step of the edge-map construction: create the shared-genre set on
demand and add the genre. -/
def emAdd (m : List (String × List String)) (ek g : String) :
    List (String × List String) :=
  match getA m ek with
  | some s => setFirst m ek (setAdd s g)
  | none => setFirst m ek [g]

/-- The map edge key to shared-genre set of `computeGenreEdges`. -/
def buildEdgeMap (gi : List (String × List String)) :
    List (String × List String) :=
  gi.foldl (fun m e =>
    (pairsOf e.2).foldl (fun m p => emAdd m (canonEdgeKey p.1 p.2) e.1) m) []

/-- Split a character list at every occurrence of a separator character
(JavaScript `String.prototype.split` with a one-character separator). -/
def splitList (sep : Char) : List Char → List (List Char)
  | [] => [[]]
  | c :: cs =>
      match splitList sep cs with
      | [] => [[]]
      | h :: t => if c = sep then [] :: h :: t else (c :: h) :: t

/-- `s.split(sep)`. -/
def jsSplit (s : String) (sep : Char) : List String :=
  (splitList sep s.data).map (fun cs => String.mk cs)

/-- `computeGenreEdges` from the source.  The destructuring
`[sourceKey, targetKey] = edgeKey.split("|")` reads the first two split
components (every edge key contains a separator, so both exist). -/
def computeGenreEdges (nodes : List GenreComboNode) : List GenreEdge :=
  (buildEdgeMap (buildGenreIndex nodes)).map (fun e =>
    let parts := jsSplit e.1 '|'
    { sourceKey := (parts[0]?).getD "", targetKey := (parts[1]?).getD "",
      sharedGenres := e.2 })

/-! ### Row-based strip packing (`packCircles`) -/
/-- The mutable cursor state of `packCircles`. -/
structure PackState where
  cursorX : ℝ
  cursorY : ℝ
  rowHeight : ℝ

/-- `totalArea = sum of d * d` over `d = (radius + pad) * 2`. -/
noncomputable def totalAreaOf (nodes : List GenreComboNode) : ℝ :=
  nodes.foldl (fun acc nd =>
    acc + ((nd.radius + CIRCLE_PADDING) * 2) * ((nd.radius + CIRCLE_PADDING) * 2)) 0

open Classical in
/-- One iteration of the placement loop of `packCircles`: wrap to a new row
when the circle does not fit and the row is nonempty, then place the circle
and advance the cursor. -/
noncomputable def packStep (w : ℝ) (st : PackState) (nd : GenreComboNode) :
    PackState × GenreComboNode :=
  let diameter := nd.radius * 2 + CIRCLE_PADDING
  let st1 := if w < st.cursorX + diameter ∧ CIRCLE_PADDING < st.cursorX then
      { cursorX := CIRCLE_PADDING,
        cursorY := st.cursorY + st.rowHeight + CIRCLE_PADDING,
        rowHeight := 0 }
    else st
  ({ cursorX := st1.cursorX + diameter + CIRCLE_PADDING,
     cursorY := st1.cursorY,
     rowHeight := max st1.rowHeight diameter },
   { nd with cx := st1.cursorX + nd.radius, cy := st1.cursorY + nd.radius })

/-- The placement loop of `packCircles` over all nodes. -/
noncomputable def packGo (w : ℝ) (st : PackState) :
    List GenreComboNode → List GenreComboNode
  | [] => []
  | nd :: rest =>
      let p := packStep w st nd
      p.2 :: packGo w p.1 rest

/-- `packCircles` from the source (the in-place mutation of `cx`, `cy` is
modelled by returning the updated node list). -/
noncomputable def packCircles (nodes : List GenreComboNode) :
    List GenreComboNode :=
  if nodes.length = 0 then nodes
  else
    let w := Real.sqrt (totalAreaOf nodes * 1.6)
    packGo w
      { cursorX := CIRCLE_PADDING, cursorY := CIRCLE_PADDING, rowHeight := 0 }
      nodes

/-- The node lies in the cursor's current row: its top edge is at the row's
`cursorY`, the cursor has moved at least a padding past its padded right
edge, and the row height covers its padded diameter. -/
def InRow (st : PackState) (nd : GenreComboNode) : Prop :=
  nd.cy = st.cursorY + nd.radius ∧
  nd.cx + nd.radius + 2 * CIRCLE_PADDING ≤ st.cursorX ∧
  2 * nd.radius + CIRCLE_PADDING ≤ st.rowHeight

/-- The node lies in a finished row: the cursor's `cursorY` has moved at
least two paddings past its bottom edge minus a padding. -/
def RowDone (st : PackState) (nd : GenreComboNode) : Prop :=
  nd.cy + nd.radius + 2 * CIRCLE_PADDING ≤ st.cursorY

/-- The invariant of every node already placed by `packCircles`. -/
def PlacedNode (st : PackState) (nd : GenreComboNode) : Prop :=
  InRow st nd ∨ RowDone st nd

/-- Two nodes are separated along an axis by the sum of their radii plus
twice the padding. -/
def Sep (a b : GenreComboNode) : Prop :=
  a.radius + b.radius + 2 * CIRCLE_PADDING ≤ |a.cx - b.cx| ∨
  a.radius + b.radius + 2 * CIRCLE_PADDING ≤ |a.cy - b.cy|

/-! ### Orchestration (`calculateCircleGraphLayout`) -/
/-- The layout value (`CircleGraphLayout` from the types). -/
structure CircleGraphLayout where
  nodes : List GenreComboNode
  edges : List GenreEdge
  nodeMap : List (String × GenreComboNode)
  totalWidth : ℝ
  totalHeight : ℝ
  tileSize : ℝ

/-- `displayLabel = key === "other" || key === "uncategorized" ? key :
genres.join(" / ")`. -/
def displayLabelOf (key : String) (genres : List String) : String :=
  if key = "other" ∨ key = "uncategorized" then key
  else String.intercalate " / " genres

/-- Node creation in the orchestrator's first loop. -/
noncomputable def mkNode (key : String) (grp : ComboGroup) : GenreComboNode :=
  let pr := calculateCircularTilePositions grp.tracks key
  { key := key, genres := grp.genres,
    displayLabel := displayLabelOf key grp.genres,
    tracks := grp.tracks, tilePositions := pr.1, radius := pr.2,
    cx := 0, cy := 0 }

/-- The order imposed by the comparator
`(a, b) => b.tracks.length - a.tracks.length`: member count descending. -/
def countDescLe (a b : GenreComboNode) : Prop :=
  b.tracks.length ≤ a.tracks.length

instance : DecidableRel countDescLe :=
  fun a b => inferInstanceAs (Decidable (b.tracks.length ≤ a.tracks.length))

/-- `calculateCircleGraphLayout` from the source. -/
noncomputable def calculateCircleGraphLayout (tracks : List Track) :
    CircleGraphLayout :=
  let comboGroups := groupTracksByTopGenres tracks MIN_COMBO_TRACKS
  let nodes0 := comboGroups.map (fun e => mkNode e.1 e.2)
  let nodes1 := sortBy countDescLe nodes0
  let edges := computeGenreEdges nodes1
  let nodes2 := packCircles nodes1
  let nodeMap := nodes2.foldl (fun m nd => setFirst m nd.key nd) []
  let maxX := nodes2.foldl
    (fun mx nd => max mx (nd.cx + nd.radius + CIRCLE_PADDING)) 0
  let maxY := nodes2.foldl
    (fun my nd => max my (nd.cy + nd.radius + CIRCLE_PADDING)) 0
  { nodes := nodes2, edges := edges, nodeMap := nodeMap,
    totalWidth := maxX, totalHeight := maxY, tileSize := TILE_SIZE }

/-! ### Concrete inputs for witnesses and counterexamples -/
/-- Five tracks tagged `["a"]`. -/
def aTracks : List Track :=
  [⟨1, some ["a"]⟩, ⟨2, some ["a"]⟩, ⟨3, some ["a"]⟩, ⟨4, some ["a"]⟩,
   ⟨5, some ["a"]⟩]

/-- Two tracks tagged `["zeta"]` followed by five tracks tagged
`["other"]`: the `"zeta"` combo is undersized and folds into `"other"`
before the naturally-keyed `"other"` combo is processed. -/
def zetaOtherTracks : List Track :=
  [⟨1, some ["zeta"]⟩, ⟨2, some ["zeta"]⟩, ⟨11, some ["other"]⟩,
   ⟨12, some ["other"]⟩, ⟨13, some ["other"]⟩, ⟨14, some ["other"]⟩,
   ⟨15, some ["other"]⟩]

/-- A track whose two genre labels only differ in case. -/
def jazzTrack : Track := ⟨1, some ["Jazz", "jazz"]⟩

/-- Five tracks tagged `["b"]`. -/
def bTracks : List Track :=
  [⟨11, some ["b"]⟩, ⟨12, some ["b"]⟩, ⟨13, some ["b"]⟩, ⟨14, some ["b"]⟩,
   ⟨15, some ["b"]⟩]

/-- Ten tracks forming two clusters; the `"b"` cluster is encountered
first. -/
def abTracks : List Track := bTracks ++ aTracks

/-! ### Supporting lemmas for the degenerate-layout claim (C9) -/
/-- The degenerate-but-valid inputs named by the spec: the empty
collection, collections whose tracks carry no genre labels, and
collections where every track collapses into a single combo. -/
def DegenerateInput (tracks : List Track) : Prop :=
  tracks = [] ∨
  (∀ t ∈ tracks, t.nts_genres = none ∨ t.nts_genres = some []) ∨
  (∀ t ∈ tracks, ∀ t' ∈ tracks,
    pickTopGenres t.nts_genres (buildGenreFrequency tracks)
      MAX_GENRES_PER_TRACK =
    pickTopGenres t'.nts_genres (buildGenreFrequency tracks)
      MAX_GENRES_PER_TRACK)

/-- A string whose data avoids the pipe separator. -/
def pipeFree (s : String) : Prop := '|' ∉ s.data

/-- The inverted-index entry for a genre, as a list (empty when absent). -/
def giList (m : List (String × List String)) (g : String) : List String :=
  (getA m g).getD []

/-- The keys of the nodes whose genre list contains `g`, in node order. -/
def keysWith (nodes : List GenreComboNode) (g : String) : List String :=
  (nodes.filter (fun nd => g ∈ nd.genres)).map (fun nd => nd.key)

/-- The shared-genre set stored for an edge key, as a list (empty when
absent). -/
def emList (m : List (String × List String)) (ek : String) : List String :=
  (getA m ek).getD []

instance (s : String) : Decidable (pipeFree s) :=
  inferInstanceAs (Decidable ('|' ∉ s.data))

/-- A single cluster whose genre list repeats one genre (reachable from the
pipeline, since `pickTopGenres` does not deduplicate labels). -/
noncomputable def c4Node : GenreComboNode :=
  { key := "a", genres := ["g", "g"], displayLabel := "a", tracks := [],
    tilePositions := [], radius := 0, cx := 0, cy := 0 }

/-- Two clusters with distinct pipe-free keys sharing genre `g`. -/
noncomputable def c4NodeA : GenreComboNode :=
  { key := "a", genres := ["g"], displayLabel := "a", tracks := [],
    tilePositions := [], radius := 0, cx := 0, cy := 0 }

/-- Second witness cluster for the edge construction. -/
noncomputable def c4NodeB : GenreComboNode :=
  { key := "b", genres := ["g", "h"], displayLabel := "b", tracks := [],
    tilePositions := [], radius := 0, cx := 0, cy := 0 }

end NTS

namespace GenreLayout

open NTS

/-- A genre group (`GenreGroup` from the types): name, member tracks and the
tag-frequency profile built by `buildTagProfile`. -/
structure GenreGroup where
  genre : String
  displayLabel : String
  tracks : List Track
  tagProfile : List (String × ℝ)

/-- The reserved-name test `g.genre === "other" || g.genre ===
"uncategorized"` used by both filters in `orderGenresBySimilarity`. -/
def isSpecialG (g : GenreGroup) : Bool :=
  g.genre == "other" || g.genre == "uncategorized"

/-- The comparator `(a, b) => b.tracks.length - a.tracks.length` on genre
groups: member count descending. -/
def tracksDescLe (a b : GenreGroup) : Prop :=
  b.tracks.length ≤ a.tracks.length

instance : DecidableRel tracksDescLe :=
  fun a b => inferInstanceAs (Decidable (b.tracks.length ≤ a.tracks.length))

/-- `cosineSimilarity` from `genreLayout.ts`: one pass over `a` accumulating
the dot product and `|a|^2`, one pass over `b` for `|b|^2`; `0` when a
magnitude vanishes. -/
noncomputable def cosineSimilarity (a b : List (String × ℝ)) : ℝ :=
  let s := a.foldl (fun (acc : ℝ × ℝ) e =>
    (acc.1 + (match getA b e.1 with
      | some vB => e.2 * vB
      | none => 0),
     acc.2 + e.2 * e.2)) (0, 0)
  let magB := b.foldl (fun acc e => acc + e.2 * e.2) 0
  let denom := Real.sqrt s.2 * Real.sqrt magB
  if denom = 0 then 0 else s.1 / denom

open Classical in
/-- The body of the inner `for (const candidate of normal)` scan of
`orderGenresBySimilarity`: skip visited candidates, otherwise keep the
candidate if its similarity to `current` strictly beats the running
best. -/
noncomputable def pickStep (visited : List String) (current : GenreGroup)
    (acc : ℝ × Option GenreGroup) (cand : GenreGroup) :
    ℝ × Option GenreGroup :=
  if cand.genre ∈ visited then acc
  else
    let sim := cosineSimilarity current.tagProfile cand.tagProfile
    if acc.1 < sim then (sim, some cand) else acc

/-- The inner `for (const candidate of normal)` scan of
`orderGenresBySimilarity`: best unvisited candidate by similarity to
`current` (strict improvement over a running best starting at `-1`). -/
noncomputable def pickBest (normal : List GenreGroup) (visited : List String)
    (current : GenreGroup) : Option GenreGroup :=
  (normal.foldl (pickStep visited current) (-1, none)).2

/-- The `while (ordered.length < normal.length)` loop of
`orderGenresBySimilarity`.  The loop makes no progress when every
remaining candidate's genre name is already in `visited` (the source then
spins forever); that stuck state is modelled by `none`.  The fuel argument
is set so that it never runs out on a productive run. -/
noncomputable def greedyLoop (normal : List GenreGroup) :
    Nat → List GenreGroup → List String → Option (List GenreGroup)
  | 0, ordered, _ =>
      if ordered.length < normal.length then none else some ordered
  | fuel + 1, ordered, visited =>
      if ordered.length < normal.length then
        match ordered.getLast? with
        | none => none
        | some current =>
            match pickBest normal visited current with
            | none => none
            | some g => greedyLoop normal fuel (ordered ++ [g])
                (g.genre :: visited)
      else some ordered

/-- `orderGenresBySimilarity` from `genreLayout.ts`: specials
(`"other"`/`"uncategorized"`) go last; normal groups are ordered by a
greedy nearest-neighbour walk starting from the largest group.  `none`
models the non-terminating stuck state of the source's `while` loop. -/
noncomputable def orderGenresBySimilarity (groups : List GenreGroup) :
    Option (List GenreGroup) :=
  let special := groups.filter (fun g => isSpecialG g)
  let normal := groups.filter (fun g => !isSpecialG g)
  if normal.length = 0 then some special
  else
    let sortedNormal := sortBy tracksDescLe normal
    match sortedNormal with
    | [] => some special
    | first :: _ =>
        (greedyLoop sortedNormal sortedNormal.length [first]
          [first.genre]).map (fun ordered => ordered ++ special)

/-- Two distinct groups sharing the genre name `"a"`. -/
noncomputable def gDup1 : GenreGroup := ⟨"a", "a", [⟨1, none⟩], [("a", 1)]⟩

/-- A second group with the same genre name as `gDup1`. -/
noncomputable def gDup2 : GenreGroup := ⟨"a", "a", [⟨2, none⟩], [("a", 1)]⟩

/-- A two-track normal group named `"a"`. -/
noncomputable def gNormA : GenreGroup :=
  ⟨"a", "a", [⟨1, none⟩, ⟨2, none⟩], [("a", 1)]⟩

/-- A one-track normal group named `"b"`. -/
noncomputable def gNormB : GenreGroup :=
  ⟨"b", "b", [⟨3, none⟩], [("b", 1)]⟩

/-- A reserved catch-all group. -/
noncomputable def gOther : GenreGroup :=
  ⟨"other", "other", [⟨4, none⟩], []⟩

end GenreLayout

namespace NTS

theorem jsLe_total (a b : String) : jsLe a b ∨ jsLe b a := le_total a.data b.data

theorem jsLe_trans (a b c : String) : jsLe a b → jsLe b c → jsLe a c :=
  fun h1 h2 => le_trans h1 h2

theorem jsLe_of_not_jsLt {a b : String} (h : ¬ jsLt a b) : jsLe b a :=
  not_lt.mp h

theorem mem_setFirst {α : Type} {m : List (String × α)} {k k' : String}
    {v v' : α} (h : (k', v') ∈ setFirst m k v) :
    (k' = k ∧ v' = v) ∨ (k', v') ∈ m := by
  induction m with
  | nil =>
      simp only [setFirst, List.mem_singleton, Prod.mk.injEq] at h
      exact Or.inl h
  | cons hd tl ih =>
      obtain ⟨hk, hv⟩ := hd
      by_cases hkk : hk = k
      · subst hkk
        simp only [setFirst, eq_self_iff_true, ite_true, List.mem_cons,
          Prod.mk.injEq] at h
        rcases h with h | h
        · exact Or.inl h
        · exact Or.inr (List.mem_cons_of_mem _ h)
      · simp only [setFirst, if_neg hkk, List.mem_cons] at h
        rcases h with h | h
        · exact Or.inr (List.mem_cons.mpr (Or.inl h))
        · rcases ih h with h' | h'
          · exact Or.inl h'
          · exact Or.inr (List.mem_cons_of_mem _ h')

theorem getA_setFirst_self {α : Type} (m : List (String × α)) (k : String)
    (v : α) : getA (setFirst m k v) k = some v := by
  induction m with
  | nil => simp [setFirst, getA]
  | cons hd tl ih =>
      obtain ⟨hk, hv⟩ := hd
      by_cases hkk : hk = k
      · subst hkk; simp [setFirst, getA]
      · simp [setFirst, getA, hkk, ih]

theorem getA_setFirst_ne {α : Type} (m : List (String × α)) {k k' : String}
    (hne : k ≠ k') (v : α) : getA (setFirst m k v) k' = getA m k' := by
  induction m with
  | nil => simp [setFirst, getA, hne]
  | cons hd tl ih =>
      obtain ⟨hk, hv⟩ := hd
      by_cases hkk : hk = k
      · subst hkk; simp [setFirst, getA, hne]
      · simp [setFirst, getA, hkk, ih]

theorem keysOf_setFirst {α : Type} (m : List (String × α)) (k : String)
    (v : α) :
    keysOf (setFirst m k v) = if k ∈ keysOf m then keysOf m
      else keysOf m ++ [k] := by
  induction m with
  | nil => simp [setFirst, keysOf]
  | cons hd tl ih =>
      obtain ⟨hk, hv⟩ := hd
      by_cases hkk : hk = k
      · subst hkk; simp [setFirst, keysOf]
      · have hne : ¬ k = hk := fun h => hkk h.symm
        simp only [setFirst, if_neg hkk, keysOf, List.map_cons,
          List.mem_cons, hne, false_or]
        by_cases hmem : k ∈ keysOf tl
        · simp [keysOf] at hmem
          simp [hmem, keysOf] at ih
          simp [hmem, ih, keysOf]
        · simp [keysOf] at hmem
          simp [hmem, keysOf] at ih
          simp [hmem, ih, keysOf]

theorem nodup_keys_setFirst {α : Type} {m : List (String × α)}
    (h : (keysOf m).Nodup) (k : String) (v : α) :
    (keysOf (setFirst m k v)).Nodup := by
  rw [keysOf_setFirst]
  by_cases hmem : k ∈ keysOf m
  · simpa [hmem] using h
  · rw [if_neg hmem]
    refine List.nodup_append.mpr ⟨h, List.nodup_singleton k, ?_⟩
    intro x hx hx'
    have : x = k := by simpa using hx'
    exact hmem (this ▸ hx)

/-- When the key is fresh, `Map.set` is an append. -/
theorem setFirst_of_not_mem {α : Type} {m : List (String × α)} {k : String}
    (h : k ∉ keysOf m) (v : α) : setFirst m k v = m ++ [(k, v)] := by
  induction m with
  | nil => simp [setFirst]
  | cons hd tl ih =>
      obtain ⟨hk, hv⟩ := hd
      simp only [keysOf, List.map_cons, List.mem_cons] at h
      push_neg at h
      have : hk ≠ k := fun hh => h.1 hh.symm
      simp [setFirst, this, ih (by simpa [keysOf] using h.2)]

theorem perm_insertBy {α : Type} (le : α → α → Prop) [DecidableRel le]
    (a : α) (l : List α) : (insertBy le a l).Perm (a :: l) := by
  induction l with
  | nil => simp [insertBy]
  | cons b bs ih =>
      by_cases h : le b a
      · simp only [insertBy, if_pos h]
        exact ((ih.cons b).trans (List.Perm.swap a b bs))
      · simp [insertBy, if_neg h]

theorem mem_insertBy {α : Type} {le : α → α → Prop} [DecidableRel le]
    {a x : α} {l : List α} (h : x ∈ insertBy le a l) : x = a ∨ x ∈ l :=
  List.mem_cons.mp ((perm_insertBy le a l).mem_iff.mp h)

theorem pairwise_insertBy {α : Type} {le : α → α → Prop} [DecidableRel le]
    (htot : ∀ a b, le a b ∨ le b a)
    (htrans : ∀ a b c, le a b → le b c → le a c)
    {l : List α} (hl : l.Pairwise le) (a : α) :
    (insertBy le a l).Pairwise le := by
  induction l with
  | nil => simp [insertBy]
  | cons b bs ih =>
      rcases List.pairwise_cons.mp hl with ⟨hb, hbs⟩
      by_cases h : le b a
      · simp only [insertBy, if_pos h]
        refine List.pairwise_cons.mpr ⟨?_, ih hbs⟩
        intro x hx
        rcases mem_insertBy hx with rfl | hx
        · exact h
        · exact hb x hx
      · have hab : le a b := (htot a b).resolve_right h
        simp only [insertBy, if_neg h]
        refine List.pairwise_cons.mpr ⟨?_, hl⟩
        intro x hx
        rcases List.mem_cons.mp hx with rfl | hx
        · exact hab
        · exact htrans a b x hab (hb x hx)

theorem perm_sortBy_aux {α : Type} (le : α → α → Prop) [DecidableRel le]
    (l acc : List α) :
    (l.foldl (fun acc a => insertBy le a acc) acc).Perm (acc ++ l) := by
  induction l generalizing acc with
  | nil => simp
  | cons a as ih =>
      have h1 : (List.foldl (fun acc a => insertBy le a acc)
          (insertBy le a acc) as).Perm (insertBy le a acc ++ as) :=
        ih (insertBy le a acc)
      have h2 : (insertBy le a acc ++ as).Perm ((a :: acc) ++ as) :=
        (perm_insertBy le a acc).append_right as
      have h3 : ((a :: acc) ++ as).Perm (acc ++ a :: as) := by
        simpa using List.perm_middle.symm
      exact (h1.trans h2).trans h3

theorem perm_sortBy {α : Type} (le : α → α → Prop) [DecidableRel le]
    (l : List α) : (sortBy le l).Perm l := by
  simpa [sortBy] using perm_sortBy_aux le l []

theorem pairwise_sortBy {α : Type} (le : α → α → Prop) [DecidableRel le]
    (htot : ∀ a b, le a b ∨ le b a)
    (htrans : ∀ a b c, le a b → le b c → le a c)
    (l : List α) : (sortBy le l).Pairwise le := by
  suffices h : ∀ acc, acc.Pairwise le →
      (l.foldl (fun acc a => insertBy le a acc) acc).Pairwise le by
    exact h [] (by simp)
  induction l with
  | nil => intro acc hacc; simpa using hacc
  | cons a as ih =>
      intro acc hacc
      exact ih (insertBy le a acc) (pairwise_insertBy htot htrans hacc a)

/-! ### Supporting lemmas for the grouping claims -/
theorem freqLe_total (freq : List (String × Nat)) (a b : String) :
    freqLe freq a b ∨ freqLe freq b a := by
  rcases lt_trichotomy (freqOf freq a) (freqOf freq b) with h | h | h
  · exact Or.inr (Or.inl h)
  · rcases jsLe_total a b with hab | hba
    · exact Or.inl (Or.inr ⟨h, hab⟩)
    · exact Or.inr (Or.inr ⟨h.symm, hba⟩)
  · exact Or.inl (Or.inl h)

theorem freqLe_trans (freq : List (String × Nat)) (a b c : String) :
    freqLe freq a b → freqLe freq b c → freqLe freq a c := by
  intro hab hbc
  rcases hab with h1 | ⟨h1, h1'⟩ <;> rcases hbc with h2 | ⟨h2, h2'⟩
  · exact Or.inl (h2.trans h1)
  · exact Or.inl (h2 ▸ h1)
  · exact Or.inl (h1 ▸ h2)
  · exact Or.inr ⟨h1.trans h2, jsLe_trans a b c h1' h2'⟩

theorem comboKeyOf_of_ne_nil {l : List String} (h : l ≠ []) :
    comboKeyOf l = String.intercalate "/" l := by
  unfold comboKeyOf
  rw [if_pos (List.length_pos.mpr h)]

theorem foldSmall_min {m : List (String × ComboGroup)} {minTracks : Nat}
    (hm : ∀ k g, (k, g) ∈ m → k ≠ "other" → minTracks ≤ g.tracks.length)
    (key : String) (grp : ComboGroup) :
    ∀ k g, (k, g) ∈ foldSmall m key grp minTracks → k ≠ "other" →
      minTracks ≤ g.tracks.length := by
  intro k g hmem hne
  unfold foldSmall at hmem
  by_cases hbig : minTracks ≤ grp.tracks.length
  · rw [if_pos hbig] at hmem
    rcases mem_setFirst hmem with ⟨hk, hv⟩ | h
    · exact hv ▸ hbig
    · exact hm k g h hne
  · rw [if_neg hbig] at hmem
    cases hget : getA m "other" with
    | some og =>
        rw [hget] at hmem
        rcases mem_setFirst hmem with ⟨hk, _⟩ | h
        · exact absurd hk hne
        · exact hm k g h hne
    | none =>
        rw [hget] at hmem
        rcases mem_setFirst hmem with ⟨hk, _⟩ | h
        · exact absurd hk hne
        · exact hm k g h hne

theorem pass2_min (entries : List (String × ComboGroup))
    (m : List (String × ComboGroup)) (minTracks : Nat)
    (hm : ∀ k g, (k, g) ∈ m → k ≠ "other" → minTracks ≤ g.tracks.length) :
    ∀ k g, (k, g) ∈ entries.foldl (fun m e => foldSmall m e.1 e.2 minTracks) m →
      k ≠ "other" → minTracks ≤ g.tracks.length := by
  induction entries generalizing m with
  | nil => exact hm
  | cons e rest ih =>
      intro k g hmem hne
      exact ih (foldSmall m e.1 e.2 minTracks)
        (foldSmall_min hm e.1 e.2) k g hmem hne

/-! ### Claim theorems: grouping (C2, C3, C5) -/
/-- C3: every cluster in the map returned by `groupTracksByTopGenres` whose
key is not `"other"` has member count at least the minimum size `M`; the
`"other"` cluster is exempt from this bound. -/
theorem C3_min_cluster_size (tracks : List Track) (minTracks : Nat)
    (k : String) (g : ComboGroup)
    (hmem : (k, g) ∈ groupTracksByTopGenres tracks minTracks)
    (hne : k ≠ "other") : minTracks ≤ g.tracks.length := by
  simp only [groupTracksByTopGenres] at hmem
  exact pass2_min _ [] minTracks (by simp) k g hmem hne

/-- Witness for C3 at a concrete input: the five-track `"a"` cluster. -/
theorem C3_min_cluster_size_witness :
    ("a", ComboGroup.mk aTracks ["a"]) ∈ groupTracksByTopGenres aTracks 5 ∧
    5 ≤ (ComboGroup.mk aTracks ["a"]).tracks.length :=
  ⟨by decide, C3_min_cluster_size aTracks 5 "a" (ComboGroup.mk aTracks ["a"])
    (by decide) (by decide)⟩

/-- C2 fails on the code: on `zetaOtherTracks` the second pass of
`groupTracksByTopGenres` first folds the two undersized `"zeta"` tracks
into the on-demand `"other"` bucket, and then `result.set("other", group)`
for the naturally-keyed `"other"` combo overwrites that bucket, dropping
tracks 1 and 2.  The union of the returned clusters has five of the seven
input tracks and is not a permutation of the input. -/
theorem C2_partition_failure :
    groupJoin (groupTracksByTopGenres zetaOtherTracks 5) =
      [⟨11, some ["other"]⟩, ⟨12, some ["other"]⟩, ⟨13, some ["other"]⟩,
       ⟨14, some ["other"]⟩, ⟨15, some ["other"]⟩] ∧
    ¬ (groupJoin (groupTracksByTopGenres zetaOtherTracks 5)).Perm
      zetaOtherTracks := by
  exact ⟨by decide, by decide⟩

/-- C5 fails as stated: `pickTopGenres` never deduplicates.  A track whose
labels only differ in case keeps both lowercased copies in the combo. -/
theorem C5_counterexample :
    pickTopGenres jazzTrack.nts_genres (buildGenreFrequency [jazzTrack]) 2 =
      ["jazz", "jazz"] ∧
    ¬ (pickTopGenres jazzTrack.nts_genres
        (buildGenreFrequency [jazzTrack]) 2).Nodup := by
  exact ⟨by decide, by decide⟩

/-- C5 as amended (no deduplication): the combo is sorted ascending, has
`min (#labels) K` elements, is a sub-multiset of the lowercased labels
whose kept elements all rank at least as high (frequency descending, ties
alphabetically) as every dropped element; with at most `K` labels it is
exactly the lowercased labels sorted; a `null` label list yields `[]`; the
key joins the combo with `"/"` and is `"uncategorized"` for an empty
combo. -/
theorem C5_amended_top_genres (gs : List String) (freq : List (String × Nat))
    (K : Nat) :
    (pickTopGenres (some gs) freq K).Pairwise jsLe ∧
    (pickTopGenres (some gs) freq K).length = min gs.length K ∧
    (∃ dropped,
      ((pickTopGenres (some gs) freq K) ++ dropped).Perm (gs.map jsToLower) ∧
      ∀ a ∈ pickTopGenres (some gs) freq K, ∀ b ∈ dropped,
        freqLe freq a b) ∧
    (gs.length ≤ K →
      (pickTopGenres (some gs) freq K).Perm (gs.map jsToLower)) ∧
    pickTopGenres none freq K = [] ∧
    (pickTopGenres (some gs) freq K ≠ [] →
      comboKeyOf (pickTopGenres (some gs) freq K) =
        String.intercalate "/" (pickTopGenres (some gs) freq K)) ∧
    comboKeyOf [] = "uncategorized" := by
  have hkey0 : comboKeyOf [] = "uncategorized" := by simp [comboKeyOf]
  have hnone : pickTopGenres none freq K = [] := rfl
  by_cases h0 : gs.length = 0
  · have hgs : gs = [] := List.length_eq_zero.mp h0
    subst hgs
    refine ⟨?_, ?_, ⟨[], ?_, ?_⟩, ?_, hnone, ?_, hkey0⟩ <;>
      simp [pickTopGenres]
  · by_cases hle : (gs.map jsToLower).length ≤ K
    · have hcombo : pickTopGenres (some gs) freq K =
          sortBy jsLe (gs.map jsToLower) := by
        simp only [pickTopGenres, if_neg h0, if_pos hle]
      have hperm : (pickTopGenres (some gs) freq K).Perm (gs.map jsToLower) :=
        hcombo ▸ perm_sortBy jsLe (gs.map jsToLower)
      refine ⟨?_, ?_, ⟨[], ?_, ?_⟩, fun _ => hperm, hnone,
        fun h => comboKeyOf_of_ne_nil h, hkey0⟩
      · exact hcombo ▸ pairwise_sortBy jsLe jsLe_total jsLe_trans _
      · rw [hperm.length_eq, List.length_map]
        rw [List.length_map] at hle
        omega
      · simpa using hperm
      · simp
    · have hcombo : pickTopGenres (some gs) freq K =
          sortBy jsLe ((sortBy (freqLe freq) (gs.map jsToLower)).take K) := by
        simp only [pickTopGenres, if_neg h0, if_neg hle]
      have hsorted : (sortBy (freqLe freq) (gs.map jsToLower)).Pairwise
          (freqLe freq) :=
        pairwise_sortBy (freqLe freq) (freqLe_total freq) (freqLe_trans freq) _
      have hsplit : (sortBy (freqLe freq) (gs.map jsToLower)).take K ++
          (sortBy (freqLe freq) (gs.map jsToLower)).drop K =
          sortBy (freqLe freq) (gs.map jsToLower) :=
        List.take_append_drop K _
      have hcross : ∀ a ∈ (sortBy (freqLe freq) (gs.map jsToLower)).take K,
          ∀ b ∈ (sortBy (freqLe freq) (gs.map jsToLower)).drop K,
          freqLe freq a b := by
        have := hsplit ▸ hsorted
        exact (List.pairwise_append.mp this).2.2
      have hperm1 : (pickTopGenres (some gs) freq K).Perm
          ((sortBy (freqLe freq) (gs.map jsToLower)).take K) :=
        hcombo ▸ perm_sortBy jsLe _
      refine ⟨?_, ?_, ?_, ?_, hnone, fun h => comboKeyOf_of_ne_nil h, hkey0⟩
      · exact hcombo ▸ pairwise_sortBy jsLe jsLe_total jsLe_trans _
      · rw [hperm1.length_eq, List.length_take,
          (perm_sortBy (freqLe freq) (gs.map jsToLower)).length_eq,
          List.length_map, Nat.min_comm]
      · refine ⟨(sortBy (freqLe freq) (gs.map jsToLower)).drop K, ?_, ?_⟩
        · have e1 : (pickTopGenres (some gs) freq K ++
              (sortBy (freqLe freq) (gs.map jsToLower)).drop K).Perm
              ((sortBy (freqLe freq) (gs.map jsToLower)).take K ++
                (sortBy (freqLe freq) (gs.map jsToLower)).drop K) :=
            hperm1.append_right _
          have e2 : ((sortBy (freqLe freq) (gs.map jsToLower)).take K ++
              (sortBy (freqLe freq) (gs.map jsToLower)).drop K).Perm
              (gs.map jsToLower) := by
            rw [hsplit]; exact perm_sortBy (freqLe freq) _
          exact e1.trans e2
        · intro a ha b hb
          exact hcross a (hperm1.mem_iff.mp ha) b hb
      · intro hlen
        rw [List.length_map] at hle
        omega

/-- Witness for C5 as amended, at a three-label track with `K = 2`. -/
theorem C5_amended_top_genres_witness :
    pickTopGenres (some ["jazz", "soul", "funk"])
      (buildGenreFrequency
        [⟨1, some ["funk", "soul"]⟩, ⟨2, some ["funk", "soul"]⟩,
         ⟨3, some ["soul", "jazz"]⟩]) 2 = ["funk", "soul"] ∧
    (pickTopGenres (some ["jazz", "soul", "funk"])
      (buildGenreFrequency
        [⟨1, some ["funk", "soul"]⟩, ⟨2, some ["funk", "soul"]⟩,
         ⟨3, some ["soul", "jazz"]⟩]) 2).length =
      min (["jazz", "soul", "funk"] : List String).length 2 :=
  ⟨by decide,
    (C5_amended_top_genres ["jazz", "soul", "funk"]
      (buildGenreFrequency
        [⟨1, some ["funk", "soul"]⟩, ⟨2, some ["funk", "soul"]⟩,
         ⟨3, some ["soul", "jazz"]⟩]) 2).2.1⟩

/-! ### Supporting lemmas for the ring-packing claims -/
theorem ringRadiusR_eq (r : Nat) : ringRadiusR r = 48 * (r : ℝ) := by
  unfold ringRadiusR cellSize TILE_SIZE TILE_GAP RING_GAP
  ring

theorem ringRadiusR_nonneg (r : Nat) : 0 ≤ ringRadiusR r := by
  rw [ringRadiusR_eq]
  positivity

theorem ringRadiusR_le_succ (r : Nat) : ringRadiusR r ≤ ringRadiusR (r + 1) := by
  rw [ringRadiusR_eq, ringRadiusR_eq]
  push_cast
  linarith

theorem ringCapacity_ge_six (r : Nat) : 6 ≤ ringCapacity r := le_max_left _ _

theorem ringLoop_radius_nonneg (tracks : List Track) (ck : String) :
    ∀ fuel placed ring, tracks.length - placed ≤ fuel →
    0 ≤ (ringLoop tracks ck placed ring).2 := by
  intro fuel
  induction fuel with
  | zero =>
      intro placed ring hf
      have h : ¬ placed < tracks.length := by omega
      rw [ringLoop, dif_neg h]
  | succ fuel ih =>
      intro placed ring hf
      by_cases h : placed < tracks.length
      · rw [ringLoop, dif_pos h]
        simp only
        set toPlace := min (ringCapacity ring) (tracks.length - placed) with htp
        have h6 : 6 ≤ ringCapacity ring := ringCapacity_ge_six ring
        have h1 : 1 ≤ toPlace := le_min (by omega) (by omega)
        by_cases hlast : placed + toPlace < tracks.length
        · rw [if_pos hlast]
          exact ih (placed + toPlace) (ring + 1) (by omega)
        · rw [if_neg hlast]
          have hr : (0:ℝ) ≤ ringRadiusR ring := ringRadiusR_nonneg ring
          unfold TILE_SIZE
          linarith
      · rw [ringLoop, dif_neg h]

theorem ringLoop_radius_lb (tracks : List Track) (ck : String) :
    ∀ fuel placed ring, tracks.length - placed ≤ fuel →
    placed < tracks.length →
    ringRadiusR ring + TILE_SIZE / 2 ≤ (ringLoop tracks ck placed ring).2 := by
  intro fuel
  induction fuel with
  | zero => intro placed ring hf h; omega
  | succ fuel ih =>
      intro placed ring hf h
      rw [ringLoop, dif_pos h]
      simp only
      set toPlace := min (ringCapacity ring) (tracks.length - placed) with htp
      have h6 : 6 ≤ ringCapacity ring := ringCapacity_ge_six ring
      have h1 : 1 ≤ toPlace := le_min (by omega) (by omega)
      by_cases hlast : placed + toPlace < tracks.length
      · rw [if_pos hlast]
        have hrec := ih (placed + toPlace) (ring + 1) (by omega) hlast
        have := ringRadiusR_le_succ ring
        linarith
      · rw [if_neg hlast]

theorem ringLoop_radius_mono (tracks tracks' : List Track) (ck ck' : String)
    (hlen : tracks.length ≤ tracks'.length) :
    ∀ fuel placed ring, tracks.length - placed ≤ fuel →
    (ringLoop tracks ck placed ring).2 ≤ (ringLoop tracks' ck' placed ring).2 := by
  intro fuel
  induction fuel with
  | zero =>
      intro placed ring hf
      have h : ¬ placed < tracks.length := by omega
      rw [ringLoop, dif_neg h]
      exact ringLoop_radius_nonneg tracks' ck' tracks'.length placed ring
        (by omega)
  | succ fuel ih =>
      intro placed ring hf
      by_cases h : placed < tracks.length
      · have h' : placed < tracks'.length := lt_of_lt_of_le h hlen
        rw [ringLoop, dif_pos h]
        conv_rhs => rw [ringLoop, dif_pos h']
        simp only
        set toPlace := min (ringCapacity ring) (tracks.length - placed)
          with htp
        set toPlace' := min (ringCapacity ring) (tracks'.length - placed)
          with htp'
        have h6 : 6 ≤ ringCapacity ring := ringCapacity_ge_six ring
        by_cases hlast : placed + toPlace < tracks.length
        · have hcap : toPlace = ringCapacity ring := by
            rcases min_cases (ringCapacity ring) (tracks.length - placed)
              with ⟨he, _⟩ | ⟨he, hle⟩
            · rw [htp, he]
            · rw [htp, he] at hlast ⊢
              omega
          have hcap' : toPlace' = ringCapacity ring := by
            rcases min_cases (ringCapacity ring) (tracks'.length - placed)
              with ⟨he, _⟩ | ⟨he, hle⟩
            · rw [htp', he]
            · rw [htp', he] at *
              omega
          have hlast' : placed + toPlace' < tracks'.length := by
            rw [hcap'] at *
            rw [hcap] at hlast
            omega
          rw [if_pos hlast, if_pos hlast']
          rw [hcap, hcap'] at *
          exact ih (placed + ringCapacity ring) (ring + 1) (by omega)
        · rw [if_neg hlast]
          by_cases hlast' : placed + toPlace' < tracks'.length
          · rw [if_pos hlast']
            have hrec := ringLoop_radius_lb tracks' ck'
              (tracks'.length - (placed + toPlace')) (placed + toPlace')
              (ring + 1) (by omega) hlast'
            have := ringRadiusR_le_succ ring
            linarith
          · rw [if_neg hlast']
      · rw [ringLoop, dif_neg h]
        exact ringLoop_radius_nonneg tracks' ck' tracks'.length placed ring
          (by omega)

theorem calc_radius_nonneg (tracks : List Track) (ck : String) :
    0 ≤ (calculateCircularTilePositions tracks ck).2 := by
  unfold calculateCircularTilePositions
  by_cases h0 : tracks.length = 0
  · rw [if_pos h0]
  · rw [if_neg h0]
    simp only
    by_cases h1 : tracks.length = 1
    · rw [if_pos h1]
      unfold TILE_SIZE
      norm_num
    · rw [if_neg h1]
      exact ringLoop_radius_nonneg tracks ck tracks.length 1 1 (by omega)

theorem calc_radius_min (tracks : List Track) (ck : String)
    (h : tracks ≠ []) :
    TILE_SIZE / 2 ≤ (calculateCircularTilePositions tracks ck).2 := by
  unfold calculateCircularTilePositions
  have h0 : ¬ tracks.length = 0 := by
    simpa using fun hh => h (List.length_eq_zero.mp hh)
  rw [if_neg h0]
  simp only
  by_cases h1 : tracks.length = 1
  · rw [if_pos h1]
  · rw [if_neg h1]
    have hlb := ringLoop_radius_lb tracks ck tracks.length 1 1 (by omega)
      (by omega)
    have := ringRadiusR_nonneg 1
    linarith

theorem calc_radius_mono (tracks tracks' : List Track) (ck ck' : String)
    (hlen : tracks.length ≤ tracks'.length) :
    (calculateCircularTilePositions tracks ck).2 ≤
      (calculateCircularTilePositions tracks' ck').2 := by
  unfold calculateCircularTilePositions
  by_cases h0 : tracks.length = 0
  · rw [if_pos h0]
    by_cases h0' : tracks'.length = 0
    · rw [if_pos h0']
    · rw [if_neg h0']
      simp only
      by_cases h1' : tracks'.length = 1
      · rw [if_pos h1']
        unfold TILE_SIZE
        norm_num
      · rw [if_neg h1']
        exact ringLoop_radius_nonneg tracks' ck' tracks'.length 1 1
          (by omega)
  · rw [if_neg h0]
    have h0' : ¬ tracks'.length = 0 := by omega
    rw [if_neg h0']
    simp only
    by_cases h1 : tracks.length = 1
    · rw [if_pos h1]
      by_cases h1' : tracks'.length = 1
      · rw [if_pos h1']
      · rw [if_neg h1']
        have hlb := ringLoop_radius_lb tracks' ck' tracks'.length 1 1
          (by omega) (by omega)
        have := ringRadiusR_nonneg 1
        linarith
    · rw [if_neg h1]
      have h1' : ¬ tracks'.length = 1 := by omega
      rw [if_neg h1']
      exact ringLoop_radius_mono tracks tracks' ck ck' hlen
        tracks.length 1 1 (by omega)

/-! ### Claim theorem: ring monotonicity (C8) -/
/-- C8: the outer radius of `calculateCircularTilePositions` is monotone in
the member count (same fixed tile-size, gap and ring-gap parameters), a
single-member cluster has radius `tileSize / 2`, and that is the least
radius over all nonempty member lists. -/
theorem C8_radius_monotone (tracks tracks' : List Track) (ck ck' : String)
    (t : Track) (hlen : tracks.length ≤ tracks'.length) :
    (calculateCircularTilePositions tracks ck).2 ≤
      (calculateCircularTilePositions tracks' ck').2 ∧
    (calculateCircularTilePositions [t] ck).2 = TILE_SIZE / 2 ∧
    (tracks ≠ [] →
      TILE_SIZE / 2 ≤ (calculateCircularTilePositions tracks ck).2) := by
  refine ⟨calc_radius_mono tracks tracks' ck ck' hlen, ?_,
    calc_radius_min tracks ck⟩
  unfold calculateCircularTilePositions
  norm_num

/-- Witness for C8: one- and two-member clusters. -/
theorem C8_radius_monotone_witness :
    ([(⟨1, none⟩ : Track)].length ≤
      [(⟨1, none⟩ : Track), ⟨2, none⟩].length) ∧
    (calculateCircularTilePositions [⟨1, none⟩] "k").2 ≤
      (calculateCircularTilePositions [⟨1, none⟩, ⟨2, none⟩] "k").2 ∧
    (calculateCircularTilePositions [⟨1, none⟩] "k").2 = TILE_SIZE / 2 :=
  ⟨by decide,
    (C8_radius_monotone [⟨1, none⟩] [⟨1, none⟩, ⟨2, none⟩] "k" "k"
      ⟨1, none⟩ (by decide)).1,
    (C8_radius_monotone [⟨1, none⟩] [⟨1, none⟩, ⟨2, none⟩] "k" "k"
      ⟨1, none⟩ (by decide)).2.1⟩

theorem cellSize_eq : cellSize = 44 := by
  unfold cellSize TILE_SIZE TILE_GAP
  norm_num

theorem ringLoop_spec (tracks : List Track) (ck : String) :
    ∀ fuel placed ring, tracks.length - placed ≤ fuel →
    (ringLoop tracks ck placed ring).1.length = tracks.length - placed ∧
    (∀ p ∈ (ringLoop tracks ck placed ring).1,
      ring ≤ p.ring ∧ p.angleIndex < ringCapacity p.ring ∧
      p.x = Real.cos (2 * Real.pi * (p.angleIndex : ℝ) /
          (ringCapacity p.ring : ℝ)) * ringRadiusR p.ring - TILE_SIZE / 2 ∧
      p.y = Real.sin (2 * Real.pi * (p.angleIndex : ℝ) /
          (ringCapacity p.ring : ℝ)) * ringRadiusR p.ring - TILE_SIZE / 2) ∧
    (∀ r, ((ringLoop tracks ck placed ring).1.filter
      (fun p => p.ring = r)).length ≤ ringCapacity r) := by
  intro fuel
  induction fuel with
  | zero =>
      intro placed ring hf
      have h : ¬ placed < tracks.length := by omega
      rw [ringLoop, dif_neg h]
      refine ⟨?_, ?_, ?_⟩
      · simp only [List.length_nil]
        omega
      · intro p hp
        exact absurd hp (List.not_mem_nil p)
      · intro r
        simp only [List.filter_nil, List.length_nil]
        exact Nat.zero_le _
  | succ fuel ih =>
      intro placed ring hf
      by_cases h : placed < tracks.length
      · rw [ringLoop, dif_pos h]
        simp only
        set cap := ringCapacity ring with hcap
        set toPlace := min cap (tracks.length - placed) with htp
        have h6 : 6 ≤ cap := ringCapacity_ge_six ring
        have h1 : 1 ≤ toPlace := le_min (by omega) (by omega)
        have htle : toPlace ≤ cap := min_le_left _ _
        obtain ⟨ihlen, ihmem, ihfil⟩ :=
          ih (placed + toPlace) (ring + 1) (by omega)
        refine ⟨?_, ?_, ?_⟩
        · simp only [List.length_append, List.length_map, List.length_range,
            ihlen]
          omega
        · intro p hp
          rcases List.mem_append.mp hp with hp | hp
          · obtain ⟨i, hi, rfl⟩ := List.mem_map.mp hp
            have hi' : i < toPlace := List.mem_range.mp hi
            refine ⟨le_refl _, ?_, rfl, rfl⟩
            show i < cap
            omega
          · obtain ⟨hring, hrest⟩ := ihmem p hp
            exact ⟨by omega, hrest⟩
        · intro r
          simp only [List.filter_append, List.length_append]
          by_cases hr : r = ring
          · have hnil : ((ringLoop tracks ck (placed + toPlace)
                (ring + 1)).1.filter (fun p => p.ring = r)).length = 0 := by
              rw [List.length_eq_zero, List.filter_eq_nil_iff]
              intro p hp
              have hge := (ihmem p hp).1
              simp only [decide_eq_true_eq]
              omega
            have hle2 : (((List.range toPlace).map (fun i =>
                { trackId := trackIdAt tracks (placed + i), comboKey := ck,
                  x := Real.cos (2 * Real.pi * (i : ℝ) / (cap : ℝ)) *
                    ringRadiusR ring - TILE_SIZE / 2,
                  y := Real.sin (2 * Real.pi * (i : ℝ) / (cap : ℝ)) *
                    ringRadiusR ring - TILE_SIZE / 2,
                  ring := ring, angleIndex := i :
                    CircleTilePosition })).filter
                (fun p => p.ring = r)).length ≤ toPlace := by
              refine le_trans (List.length_filter_le _ _) ?_
              simp
            rw [hr]
            rw [hr] at hnil hle2
            omega
          · have hnil2 : (((List.range toPlace).map (fun i =>
                { trackId := trackIdAt tracks (placed + i), comboKey := ck,
                  x := Real.cos (2 * Real.pi * (i : ℝ) / (cap : ℝ)) *
                    ringRadiusR ring - TILE_SIZE / 2,
                  y := Real.sin (2 * Real.pi * (i : ℝ) / (cap : ℝ)) *
                    ringRadiusR ring - TILE_SIZE / 2,
                  ring := ring, angleIndex := i :
                    CircleTilePosition })).filter
                (fun p => p.ring = r)).length = 0 := by
              rw [List.length_eq_zero, List.filter_eq_nil_iff]
              intro p hp
              obtain ⟨i, hi, rfl⟩ := List.mem_map.mp hp
              simp only [decide_eq_true_eq]
              omega
            rw [hnil2]
            have := ihfil r
            omega

      · rw [ringLoop, dif_neg h]
        refine ⟨?_, ?_, ?_⟩
        · simp only [List.length_nil]
          omega
        · intro p hp
          exact absurd hp (List.not_mem_nil p)
        · intro r
          simp only [List.filter_nil, List.length_nil]
          exact Nat.zero_le _

/-- C7 fails as stated: the code's ring radius is
`r * (tileSize + tileGap + ringGap)` = `48 r`, not
`r * (tileSize + gap)` = `44 r`.  For a two-member cluster the outer
radius is `48 + tileSize/2 = 68`, while the claimed formula gives
`44 + tileSize/2 = 64`. -/
theorem C7_counterexample :
    (calculateCircularTilePositions [⟨1, none⟩, ⟨2, none⟩] "k").2 = 68 ∧
    (calculateCircularTilePositions [⟨1, none⟩, ⟨2, none⟩] "k").2 ≠
      1 * (TILE_SIZE + TILE_GAP) + TILE_SIZE / 2 := by
  have hv : (calculateCircularTilePositions [⟨1, none⟩, ⟨2, none⟩] "k").2 =
      68 := by
    unfold calculateCircularTilePositions
    rw [if_neg (by norm_num)]
    dsimp only
    rw [if_neg (by norm_num)]
    rw [ringLoop, dif_pos (by norm_num : 1 < ([⟨1, none⟩, ⟨2, none⟩] :
      List Track).length)]
    dsimp only [List.length_cons, List.length_nil]
    have htp : min (ringCapacity 1) (2 - 1) = 1 :=
      Nat.min_eq_right (le_trans (by norm_num) (ringCapacity_ge_six 1))
    rw [htp]
    rw [if_neg (by norm_num)]
    rw [ringRadiusR_eq]
    unfold TILE_SIZE
    norm_num
  refine ⟨hv, ?_⟩
  rw [hv]
  unfold TILE_SIZE TILE_GAP
  norm_num

/-- C7 as amended: for every ring `r = 1, 2, …` the ring radius is
`r * (tileSize + tileGap + ringGap) = 48 r` and the capacity is
`max(6, floor(circumference(ring radius) / (tileSize + tileGap)))`
(divisor `44`, not `tileSize`); each member position on ring `r` sits at
angle `2π · angleIndex / capacity` on that radius, at most `capacity`
members are placed per ring, and all members are placed. -/
theorem C7_amended_ring_structure (tracks : List Track) (ck : String)
    (r : Nat) (hr : 1 ≤ r) (htracks : tracks ≠ []) :
    ringCapacity r = max 6 ⌊2 * Real.pi * (48 * (r : ℝ)) / 44⌋₊ ∧
    (calculateCircularTilePositions tracks ck).1.length = tracks.length ∧
    (∀ p ∈ (calculateCircularTilePositions tracks ck).1, 1 ≤ p.ring →
      p.angleIndex < ringCapacity p.ring ∧
      p.x = Real.cos (2 * Real.pi * (p.angleIndex : ℝ) /
          (ringCapacity p.ring : ℝ)) * (48 * (p.ring : ℝ)) - TILE_SIZE / 2 ∧
      p.y = Real.sin (2 * Real.pi * (p.angleIndex : ℝ) /
          (ringCapacity p.ring : ℝ)) * (48 * (p.ring : ℝ)) - TILE_SIZE / 2) ∧
    ((calculateCircularTilePositions tracks ck).1.filter
      (fun p => p.ring = r)).length ≤ ringCapacity r := by
  have hcapeq : ringCapacity r = max 6 ⌊2 * Real.pi * (48 * (r : ℝ)) / 44⌋₊ := by
    unfold ringCapacity
    rw [ringRadiusR_eq, cellSize_eq]
  have h0 : ¬ tracks.length = 0 := by
    simpa using fun hh => htracks (List.length_eq_zero.mp hh)
  have hlen1 : 1 ≤ tracks.length := by omega
  obtain ⟨slen, smem, sfil⟩ :=
    ringLoop_spec tracks ck tracks.length 1 1 (by omega)
  refine ⟨hcapeq, ?_, ?_, ?_⟩
  · unfold calculateCircularTilePositions
    rw [if_neg h0]
    dsimp only
    rw [List.length_cons, slen]
    omega
  · unfold calculateCircularTilePositions
    rw [if_neg h0]
    dsimp only
    intro p hp h1p
    rcases List.mem_cons.mp hp with rfl | hp
    · simp at h1p
    · obtain ⟨hge, hidx, hx, hy⟩ := smem p hp
      rw [ringRadiusR_eq] at hx hy
      exact ⟨hidx, hx, hy⟩
  · unfold calculateCircularTilePositions
    rw [if_neg h0]
    dsimp only
    rw [List.filter_cons_of_neg]
    · exact sfil r
    · simp only [decide_eq_true_eq]
      omega

/-- Witness for C7 as amended, at a two-member cluster and ring 1. -/
theorem C7_amended_ring_structure_witness :
    (1 : Nat) ≤ 1 ∧ ([⟨1, none⟩, ⟨2, none⟩] : List Track) ≠ [] ∧
    (calculateCircularTilePositions [⟨1, none⟩, ⟨2, none⟩] "k").1.length =
      2 :=
  ⟨by decide, by decide,
    (C7_amended_ring_structure [⟨1, none⟩, ⟨2, none⟩] "k" 1 (by decide)
      (by decide)).2.1⟩

/-! ### Supporting lemmas for strip packing (C1) -/
theorem CIRCLE_PADDING_nonneg : (0 : ℝ) ≤ CIRCLE_PADDING := by
  unfold CIRCLE_PADDING
  norm_num

theorem packStep_radius (w : ℝ) (st : PackState) (nd : GenreComboNode) :
    (packStep w st nd).2.radius = nd.radius := by
  simp only [packStep]

theorem packStep_key (w : ℝ) (st : PackState) (nd : GenreComboNode) :
    (packStep w st nd).2.key = nd.key := by
  simp only [packStep]

theorem packStep_placed (w : ℝ) (st : PackState) (nd : GenreComboNode)
    (hrow : 0 ≤ st.rowHeight) (hnd : 0 ≤ nd.radius) :
    PlacedNode (packStep w st nd).1 (packStep w st nd).2 ∧
    0 ≤ (packStep w st nd).1.rowHeight := by
  have hpad := CIRCLE_PADDING_nonneg
  simp only [packStep]
  by_cases hc : w < st.cursorX + (nd.radius * 2 + CIRCLE_PADDING) ∧
      CIRCLE_PADDING < st.cursorX
  · rw [if_pos hc]
    have hmr := le_max_right (0 : ℝ) (nd.radius * 2 + CIRCLE_PADDING)
    constructor
    · exact Or.inl ⟨rfl, by dsimp only; linarith, by dsimp only; linarith⟩
    · dsimp only
      linarith
  · rw [if_neg hc]
    have hmr := le_max_right st.rowHeight (nd.radius * 2 + CIRCLE_PADDING)
    have hml := le_max_left st.rowHeight (nd.radius * 2 + CIRCLE_PADDING)
    constructor
    · exact Or.inl ⟨rfl, by dsimp only; linarith, by dsimp only; linarith⟩
    · dsimp only
      linarith

theorem packStep_sep (w : ℝ) (st : PackState) (nd p : GenreComboNode)
    (hrow : 0 ≤ st.rowHeight) (hnd : 0 ≤ nd.radius)
    (hp : PlacedNode st p) :
    Sep p (packStep w st nd).2 ∧ PlacedNode (packStep w st nd).1 p := by
  have hpad := CIRCLE_PADDING_nonneg
  simp only [packStep]
  by_cases hc : w < st.cursorX + (nd.radius * 2 + CIRCLE_PADDING) ∧
      CIRCLE_PADDING < st.cursorX
  · rw [if_pos hc]
    have hysep : ∀ y : ℝ, p.radius + nd.radius + 2 * CIRCLE_PADDING ≤
        y - p.cy → p.radius + nd.radius + 2 * CIRCLE_PADDING ≤
        |p.cy - y| := by
      intro y hy
      calc p.radius + nd.radius + 2 * CIRCLE_PADDING ≤ y - p.cy := hy
        _ ≤ |y - p.cy| := le_abs_self _
        _ = |p.cy - y| := abs_sub_comm _ _
    rcases hp with ⟨hcy, hcx, hrh⟩ | hdone
    · refine ⟨Or.inr ?_, Or.inr ?_⟩
      · dsimp only
        refine hysep _ ?_
        rw [hcy]
        linarith
      · show p.cy + p.radius + 2 * CIRCLE_PADDING ≤
          st.cursorY + st.rowHeight + CIRCLE_PADDING
        rw [hcy]
        linarith
    · refine ⟨Or.inr ?_, Or.inr ?_⟩
      · dsimp only
        refine hysep _ ?_
        have hd : p.cy + p.radius + 2 * CIRCLE_PADDING ≤ st.cursorY := hdone
        linarith
      · show p.cy + p.radius + 2 * CIRCLE_PADDING ≤
          st.cursorY + st.rowHeight + CIRCLE_PADDING
        have hd : p.cy + p.radius + 2 * CIRCLE_PADDING ≤ st.cursorY := hdone
        linarith
  · rw [if_neg hc]
    rcases hp with ⟨hcy, hcx, hrh⟩ | hdone
    · constructor
      · refine Or.inl ?_
        dsimp only
        calc p.radius + nd.radius + 2 * CIRCLE_PADDING ≤
            (st.cursorX + nd.radius) - p.cx := by linarith
          _ ≤ |(st.cursorX + nd.radius) - p.cx| := le_abs_self _
          _ = |p.cx - (st.cursorX + nd.radius)| := abs_sub_comm _ _
      · refine Or.inl ⟨hcy, ?_, ?_⟩
        · dsimp only
          linarith
        · dsimp only
          have hml := le_max_left st.rowHeight (nd.radius * 2 + CIRCLE_PADDING)
          linarith
    · constructor
      · refine Or.inr ?_
        dsimp only
        have hd : p.cy + p.radius + 2 * CIRCLE_PADDING ≤ st.cursorY := hdone
        calc p.radius + nd.radius + 2 * CIRCLE_PADDING ≤
            (st.cursorY + nd.radius) - p.cy := by linarith
          _ ≤ |(st.cursorY + nd.radius) - p.cy| := le_abs_self _
          _ = |p.cy - (st.cursorY + nd.radius)| := abs_sub_comm _ _
      · exact Or.inr hdone

theorem packGo_sep (w : ℝ) :
    ∀ (l : List GenreComboNode) (st : PackState), 0 ≤ st.rowHeight →
    (∀ nd ∈ l, 0 ≤ nd.radius) →
    ∀ p, PlacedNode st p → ∀ q ∈ packGo w st l, Sep p q := by
  intro l
  induction l with
  | nil =>
      intro st _ _ p _ q hq
      simp [packGo] at hq
  | cons nd rest ih =>
      intro st hrow hl p hp q hq
      have hnd : 0 ≤ nd.radius := hl nd (List.mem_cons_self _ _)
      obtain ⟨hsep, hplaced⟩ := packStep_sep w st nd p hrow hnd hp
      obtain ⟨_, hrow'⟩ := packStep_placed w st nd hrow hnd
      simp only [packGo] at hq
      rcases List.mem_cons.mp hq with rfl | hq
      · exact hsep
      · exact ih (packStep w st nd).1 hrow'
          (fun x hx => hl x (List.mem_cons_of_mem _ hx)) p hplaced q hq

theorem packGo_pairwise (w : ℝ) :
    ∀ (l : List GenreComboNode) (st : PackState), 0 ≤ st.rowHeight →
    (∀ nd ∈ l, 0 ≤ nd.radius) → (packGo w st l).Pairwise Sep := by
  intro l
  induction l with
  | nil =>
      intro st _ _
      simp [packGo]
  | cons nd rest ih =>
      intro st hrow hl
      have hnd : 0 ≤ nd.radius := hl nd (List.mem_cons_self _ _)
      obtain ⟨hplaced, hrow'⟩ := packStep_placed w st nd hrow hnd
      simp only [packGo]
      refine List.pairwise_cons.mpr ⟨?_, ?_⟩
      · intro q hq
        exact packGo_sep w rest (packStep w st nd).1 hrow'
          (fun x hx => hl x (List.mem_cons_of_mem _ hx))
          (packStep w st nd).2 hplaced q hq
      · exact ih (packStep w st nd).1 hrow'
          (fun x hx => hl x (List.mem_cons_of_mem _ hx))

theorem packGo_length (w : ℝ) :
    ∀ (l : List GenreComboNode) (st : PackState),
    (packGo w st l).length = l.length := by
  intro l
  induction l with
  | nil => intro st; simp [packGo]
  | cons nd rest ih =>
      intro st
      simp only [packGo, List.length_cons, ih]

theorem packStep_tracks (w : ℝ) (st : PackState) (nd : GenreComboNode) :
    (packStep w st nd).2.tracks = nd.tracks := by
  simp only [packStep]

theorem packGo_map_key (w : ℝ) :
    ∀ (l : List GenreComboNode) (st : PackState),
    (packGo w st l).map (fun nd => nd.key) = l.map (fun nd => nd.key) := by
  intro l
  induction l with
  | nil => intro st; simp [packGo]
  | cons nd rest ih =>
      intro st
      simp only [packGo, List.map_cons, ih, packStep_key]

theorem packGo_map_counts (w : ℝ) :
    ∀ (l : List GenreComboNode) (st : PackState),
    (packGo w st l).map (fun nd => nd.tracks.length) =
      l.map (fun nd => nd.tracks.length) := by
  intro l
  induction l with
  | nil => intro st; simp [packGo]
  | cons nd rest ih =>
      intro st
      simp only [packGo, List.map_cons, ih, packStep_tracks]

theorem packGo_map_radius (w : ℝ) :
    ∀ (l : List GenreComboNode) (st : PackState),
    (packGo w st l).map (fun nd => nd.radius) =
      l.map (fun nd => nd.radius) := by
  intro l
  induction l with
  | nil => intro st; simp [packGo]
  | cons nd rest ih =>
      intro st
      simp only [packGo, List.map_cons, ih, packStep_radius]

theorem sep_dist {a b : GenreComboNode} (h : Sep a b) :
    a.radius + b.radius + 2 * CIRCLE_PADDING ≤
    Real.sqrt ((a.cx - b.cx) ^ 2 + (a.cy - b.cy) ^ 2) := by
  rcases h with h | h
  · calc a.radius + b.radius + 2 * CIRCLE_PADDING ≤ |a.cx - b.cx| := h
      _ = Real.sqrt ((a.cx - b.cx) ^ 2) := (Real.sqrt_sq_eq_abs _).symm
      _ ≤ Real.sqrt ((a.cx - b.cx) ^ 2 + (a.cy - b.cy) ^ 2) :=
        Real.sqrt_le_sqrt (by nlinarith [sq_nonneg (a.cy - b.cy)])
  · calc a.radius + b.radius + 2 * CIRCLE_PADDING ≤ |a.cy - b.cy| := h
      _ = Real.sqrt ((a.cy - b.cy) ^ 2) := (Real.sqrt_sq_eq_abs _).symm
      _ ≤ Real.sqrt ((a.cx - b.cx) ^ 2 + (a.cy - b.cy) ^ 2) :=
        Real.sqrt_le_sqrt (by nlinarith [sq_nonneg (a.cx - b.cx)])

theorem packCircles_pairwise (nodes : List GenreComboNode)
    (h : ∀ nd ∈ nodes, 0 ≤ nd.radius) :
    (packCircles nodes).Pairwise Sep := by
  unfold packCircles
  by_cases h0 : nodes.length = 0
  · rw [if_pos h0]
    rw [List.length_eq_zero.mp h0]
    simp
  · rw [if_neg h0]
    refine packGo_pairwise _ _ _ ?_ h
    norm_num

theorem packCircles_length (nodes : List GenreComboNode) :
    (packCircles nodes).length = nodes.length := by
  unfold packCircles
  by_cases h0 : nodes.length = 0
  · rw [if_pos h0]
  · rw [if_neg h0]
    exact packGo_length _ _ _

theorem packCircles_map_key (nodes : List GenreComboNode) :
    (packCircles nodes).map (fun nd => nd.key) =
      nodes.map (fun nd => nd.key) := by
  unfold packCircles
  by_cases h0 : nodes.length = 0
  · rw [if_pos h0]
  · rw [if_neg h0]
    exact packGo_map_key _ _ _

theorem packCircles_map_counts (nodes : List GenreComboNode) :
    (packCircles nodes).map (fun nd => nd.tracks.length) =
      nodes.map (fun nd => nd.tracks.length) := by
  unfold packCircles
  by_cases h0 : nodes.length = 0
  · rw [if_pos h0]
  · rw [if_neg h0]
    exact packGo_map_counts _ _ _

theorem packCircles_map_radius (nodes : List GenreComboNode) :
    (packCircles nodes).map (fun nd => nd.radius) =
      nodes.map (fun nd => nd.radius) := by
  unfold packCircles
  by_cases h0 : nodes.length = 0
  · rw [if_pos h0]
  · rw [if_neg h0]
    exact packGo_map_radius _ _ _

theorem mkNode_radius (key : String) (grp : ComboGroup) :
    (mkNode key grp).radius =
      (calculateCircularTilePositions grp.tracks key).2 := rfl

theorem layout_nodes_eq (tracks : List Track) :
    (calculateCircleGraphLayout tracks).nodes =
      packCircles (sortBy countDescLe
        ((groupTracksByTopGenres tracks MIN_COMBO_TRACKS).map
          (fun e => mkNode e.1 e.2))) := by
  simp only [calculateCircleGraphLayout]

/-! ### Claim theorem: no overlap (C1) -/
/-- C1: in the layout returned by `calculateCircleGraphLayout`, the padded
bounding circles of any two distinct clusters do not overlap: the Euclidean
distance between their centers is at least the sum of the two outer radii
plus `2 * CIRCLE_PADDING`. -/
theorem C1_no_overlap (tracks : List Track) (i j : Nat) (hij : i < j)
    (hj : j < (calculateCircleGraphLayout tracks).nodes.length) :
    ((calculateCircleGraphLayout tracks).nodes.get
        ⟨i, lt_trans hij hj⟩).radius +
    ((calculateCircleGraphLayout tracks).nodes.get ⟨j, hj⟩).radius +
      2 * CIRCLE_PADDING ≤
    Real.sqrt
      ((((calculateCircleGraphLayout tracks).nodes.get
          ⟨i, lt_trans hij hj⟩).cx -
        ((calculateCircleGraphLayout tracks).nodes.get ⟨j, hj⟩).cx) ^ 2 +
       (((calculateCircleGraphLayout tracks).nodes.get
          ⟨i, lt_trans hij hj⟩).cy -
        ((calculateCircleGraphLayout tracks).nodes.get ⟨j, hj⟩).cy) ^ 2) := by
  have hpw : (calculateCircleGraphLayout tracks).nodes.Pairwise Sep := by
    rw [layout_nodes_eq]
    refine packCircles_pairwise _ ?_
    intro nd hnd
    have hmem := (perm_sortBy countDescLe _).mem_iff.mp hnd
    obtain ⟨e, _, rfl⟩ := List.mem_map.mp hmem
    rw [mkNode_radius]
    exact calc_radius_nonneg _ _
  exact sep_dist (List.pairwise_iff_get.mp hpw ⟨i, lt_trans hij hj⟩ ⟨j, hj⟩
    (by exact hij))

theorem abLayout_nodes_length :
    (calculateCircleGraphLayout abTracks).nodes.length = 2 := by
  rw [layout_nodes_eq, packCircles_length,
    (perm_sortBy countDescLe _).length_eq, List.length_map]
  decide

theorem abLayout_one_lt :
    1 < (calculateCircleGraphLayout abTracks).nodes.length := by
  rw [abLayout_nodes_length]
  norm_num

/-- Witness for C1 at a concrete two-cluster layout. -/
theorem C1_no_overlap_witness :
    (0 : Nat) < 1 ∧ 1 < (calculateCircleGraphLayout abTracks).nodes.length ∧
    ((calculateCircleGraphLayout abTracks).nodes.get
        ⟨0, lt_trans Nat.zero_lt_one abLayout_one_lt⟩).radius +
    ((calculateCircleGraphLayout abTracks).nodes.get
        ⟨1, abLayout_one_lt⟩).radius + 2 * CIRCLE_PADDING ≤
    Real.sqrt
      ((((calculateCircleGraphLayout abTracks).nodes.get
          ⟨0, lt_trans Nat.zero_lt_one abLayout_one_lt⟩).cx -
        ((calculateCircleGraphLayout abTracks).nodes.get
          ⟨1, abLayout_one_lt⟩).cx) ^ 2 +
       (((calculateCircleGraphLayout abTracks).nodes.get
          ⟨0, lt_trans Nat.zero_lt_one abLayout_one_lt⟩).cy -
        ((calculateCircleGraphLayout abTracks).nodes.get
          ⟨1, abLayout_one_lt⟩).cy) ^ 2) :=
  ⟨Nat.zero_lt_one, abLayout_one_lt,
    C1_no_overlap abTracks 0 1 Nat.zero_lt_one abLayout_one_lt⟩

/-! ### Supporting lemmas for the sort-order claim (C6) -/
theorem calc_radius_small (tracks : List Track) (ck : String)
    (h2 : 2 ≤ tracks.length) (h7 : tracks.length ≤ 7) :
    (calculateCircularTilePositions tracks ck).2 = 68 := by
  unfold calculateCircularTilePositions
  rw [if_neg (by omega)]
  dsimp only
  rw [if_neg (by omega)]
  rw [ringLoop, dif_pos (by omega : 1 < tracks.length)]
  dsimp only
  have htp : min (ringCapacity 1) (tracks.length - 1) = tracks.length - 1 :=
    Nat.min_eq_right (le_trans (by omega) (ringCapacity_ge_six 1))
  rw [htp]
  rw [if_neg (by omega)]
  rw [ringRadiusR_eq]
  unfold TILE_SIZE
  norm_num

theorem map_eq_pair {α β : Type} {f : α → β} {l : List α} {a b : β}
    (h : l.map f = [a, b]) :
    ∃ x y, l = [x, y] ∧ f x = a ∧ f y = b := by
  cases l with
  | nil => simp at h
  | cons x t =>
      cases t with
      | nil => simp at h
      | cons y t' =>
          cases t' with
          | nil =>
              simp only [List.map_cons, List.map_nil, List.cons.injEq,
                and_true] at h
              exact ⟨x, y, rfl, h.1, h.2⟩
          | cons z t'' => simp at h

theorem abGroups_eq :
    groupTracksByTopGenres abTracks MIN_COMBO_TRACKS =
      [("b", ⟨bTracks, ["b"]⟩), ("a", ⟨aTracks, ["a"]⟩)] := by
  decide

theorem countDescLe_ab :
    countDescLe (mkNode "b" ⟨bTracks, ["b"]⟩) (mkNode "a" ⟨aTracks, ["a"]⟩) := by
  show (mkNode "a" ⟨aTracks, ["a"]⟩).tracks.length ≤
    (mkNode "b" ⟨bTracks, ["b"]⟩).tracks.length
  decide

theorem abSorted_eq :
    sortBy countDescLe
      ((groupTracksByTopGenres abTracks MIN_COMBO_TRACKS).map
        (fun e => mkNode e.1 e.2)) =
      [mkNode "b" ⟨bTracks, ["b"]⟩, mkNode "a" ⟨aTracks, ["a"]⟩] := by
  rw [abGroups_eq]
  simp only [List.map_cons, List.map_nil]
  unfold sortBy
  simp only [List.foldl_cons, List.foldl_nil]
  simp only [insertBy]
  rw [if_pos countDescLe_ab]

theorem abNodes_keys :
    (calculateCircleGraphLayout abTracks).nodes.map (fun nd => nd.key) =
      ["b", "a"] := by
  rw [layout_nodes_eq, packCircles_map_key, abSorted_eq]
  rfl

theorem abNodes_radii :
    (calculateCircleGraphLayout abTracks).nodes.map (fun nd => nd.radius) =
      [68, 68] := by
  rw [layout_nodes_eq, packCircles_map_radius, abSorted_eq]
  simp only [List.map_cons, List.map_nil, mkNode_radius]
  rw [calc_radius_small bTracks "b" (by decide) (by decide),
    calc_radius_small aTracks "a" (by decide) (by decide)]

/-! ### Claim theorems: placement order (C6) -/
/-- C6 fails as stated: on `abTracks` both clusters have equal outer radius
68, so the claimed order (radius descending, ties by combo key ascending)
would put `"a"` before `"b"`; the code sorts by member count descending
with no key tie-break (stable, so ties keep the encounter order) and
produces `"b"` before `"a"`. -/
theorem C6_counterexample :
    (calculateCircleGraphLayout abTracks).nodes.map (fun nd => nd.key) =
      ["b", "a"] ∧
    (calculateCircleGraphLayout abTracks).nodes.map (fun nd => nd.radius) =
      [68, 68] ∧
    ¬ (calculateCircleGraphLayout abTracks).nodes.Pairwise
      (fun a b => b.radius < a.radius ∨
        (a.radius = b.radius ∧ jsLe a.key b.key)) := by
  refine ⟨abNodes_keys, abNodes_radii, ?_⟩
  intro hpw
  obtain ⟨x, y, hxy, hxk, hyk⟩ := map_eq_pair abNodes_keys
  have hrad := abNodes_radii
  rw [hxy] at hrad hpw
  simp only [List.map_cons, List.map_nil, List.cons.injEq, and_true] at hrad
  obtain ⟨hxr, hyr⟩ := hrad
  have hR := (List.pairwise_cons.mp hpw).1 y (List.mem_singleton.mpr rfl)
  rcases hR with hR | ⟨-, hR⟩
  · rw [hxr, hyr] at hR
    exact absurd hR (lt_irrefl _)
  · rw [hxk, hyk] at hR
    have : ¬ jsLe "b" "a" := by decide
    exact this hR

theorem countDescLe_total (a b : GenreComboNode) :
    countDescLe a b ∨ countDescLe b a :=
  Nat.le_total b.tracks.length a.tracks.length

theorem countDescLe_trans (a b c : GenreComboNode) :
    countDescLe a b → countDescLe b c → countDescLe a c :=
  fun h1 h2 => le_trans h2 h1

/-- C6 as amended: before strip packing the clusters are sorted by member
count in descending order (stable: ties keep the order in which the combos
were first encountered, not combo-key order); since the outer radius is
monotone in member count, the radii are also non-increasing in placement
order. -/
theorem C6_amended_sort_order (tracks : List Track) :
    (calculateCircleGraphLayout tracks).nodes.Pairwise
      (fun a b => b.tracks.length ≤ a.tracks.length) ∧
    (calculateCircleGraphLayout tracks).nodes.Pairwise
      (fun a b => b.radius ≤ a.radius) := by
  have hsortpw : (sortBy countDescLe
      ((groupTracksByTopGenres tracks MIN_COMBO_TRACKS).map
        (fun e => mkNode e.1 e.2))).Pairwise countDescLe :=
    pairwise_sortBy countDescLe countDescLe_total countDescLe_trans _
  constructor
  · have hmap : (calculateCircleGraphLayout tracks).nodes.map
        (fun nd => nd.tracks.length) =
        (sortBy countDescLe
          ((groupTracksByTopGenres tracks MIN_COMBO_TRACKS).map
            (fun e => mkNode e.1 e.2))).map (fun nd => nd.tracks.length) := by
      rw [layout_nodes_eq, packCircles_map_counts]
    have h1 : ((calculateCircleGraphLayout tracks).nodes.map
        (fun nd => nd.tracks.length)).Pairwise (fun a b => b ≤ a) := by
      rw [hmap]
      exact (List.pairwise_map).mpr hsortpw
    exact (List.pairwise_map).mp h1
  · have hradpw : (sortBy countDescLe
        ((groupTracksByTopGenres tracks MIN_COMBO_TRACKS).map
          (fun e => mkNode e.1 e.2))).Pairwise
        (fun a b => b.radius ≤ a.radius) := by
      refine List.Pairwise.imp_of_mem ?_ hsortpw
      intro a b ha hb hab
      have hma := (perm_sortBy countDescLe _).mem_iff.mp ha
      have hmb := (perm_sortBy countDescLe _).mem_iff.mp hb
      obtain ⟨ea, -, rfl⟩ := List.mem_map.mp hma
      obtain ⟨eb, -, rfl⟩ := List.mem_map.mp hmb
      rw [mkNode_radius, mkNode_radius]
      exact calc_radius_mono _ _ _ _ hab
    have h1 : ((calculateCircleGraphLayout tracks).nodes.map
        (fun nd => nd.radius)).Pairwise (fun a b => b ≤ a) := by
      rw [layout_nodes_eq, packCircles_map_radius]
      exact (List.pairwise_map).mpr hradpw
    have h2 := (List.pairwise_map).mp h1
    rw [layout_nodes_eq] at h2 ⊢
    exact h2

theorem foldSmall_keys_nodup {m : List (String × ComboGroup)}
    (h : (keysOf m).Nodup) (key : String) (grp : ComboGroup)
    (minTracks : Nat) : (keysOf (foldSmall m key grp minTracks)).Nodup := by
  unfold foldSmall
  by_cases hbig : minTracks ≤ grp.tracks.length
  · rw [if_pos hbig]
    exact nodup_keys_setFirst h key grp
  · rw [if_neg hbig]
    cases getA m "other" with
    | some og => exact nodup_keys_setFirst h "other" _
    | none => exact nodup_keys_setFirst h "other" _

theorem groupKeys_nodup (tracks : List Track) (minTracks : Nat) :
    (keysOf (groupTracksByTopGenres tracks minTracks)).Nodup := by
  simp only [groupTracksByTopGenres]
  generalize rawGroupsOf tracks (buildGenreFrequency tracks) = entries
  suffices h : ∀ m : List (String × ComboGroup), (keysOf m).Nodup →
      (keysOf (entries.foldl (fun m e => foldSmall m e.1 e.2 minTracks)
        m)).Nodup by
    exact h [] (by simp [keysOf])
  induction entries with
  | nil => intro m hm; exact hm
  | cons e rest ih =>
      intro m hm
      exact ih _ (foldSmall_keys_nodup hm e.1 e.2 minTracks)

theorem layout_keys_nodup (tracks : List Track) :
    ((calculateCircleGraphLayout tracks).nodes.map
      (fun nd => nd.key)).Nodup := by
  rw [layout_nodes_eq, packCircles_map_key]
  have hperm : ((sortBy countDescLe
      ((groupTracksByTopGenres tracks MIN_COMBO_TRACKS).map
        (fun e => mkNode e.1 e.2))).map (fun nd => nd.key)).Perm
      (((groupTracksByTopGenres tracks MIN_COMBO_TRACKS).map
        (fun e => mkNode e.1 e.2)).map (fun nd => nd.key)) :=
    (perm_sortBy countDescLe _).map _
  rw [hperm.nodup_iff, List.map_map]
  have : ((fun nd : GenreComboNode => nd.key) ∘ fun e : String × ComboGroup =>
      mkNode e.1 e.2) = fun e : String × ComboGroup => e.1 := by
    funext e
    rfl
  rw [this]
  exact groupKeys_nodup tracks MIN_COMBO_TRACKS

theorem nodeMap_eq_aux :
    ∀ (nodes : List GenreComboNode) (acc : List (String × GenreComboNode)),
    (∀ nd ∈ nodes, nd.key ∉ keysOf acc) →
    (nodes.map (fun nd => nd.key)).Nodup →
    nodes.foldl (fun m nd => setFirst m nd.key nd) acc =
      acc ++ nodes.map (fun nd => (nd.key, nd)) := by
  intro nodes
  induction nodes with
  | nil => intro acc _ _; simp
  | cons nd rest ih =>
      intro acc hfresh hnodup
      simp only [List.foldl_cons, List.map_cons]
      rw [setFirst_of_not_mem (hfresh nd (List.mem_cons_self _ _)) nd]
      have hn := hnodup
      simp only [List.map_cons, List.nodup_cons] at hn
      have hfresh' : ∀ x ∈ rest, x.key ∉ keysOf (acc ++ [(nd.key, nd)]) := by
        intro x hx
        have h1 : x.key ∉ keysOf acc := hfresh x (List.mem_cons_of_mem _ hx)
        have h2 : x.key ≠ nd.key := fun hc =>
          hn.1 (hc ▸ List.mem_map_of_mem (fun nd => nd.key) hx)
        simp only [keysOf, List.map_append, List.mem_append]
        rintro (hmem | hmem)
        · exact h1 (by simpa [keysOf] using hmem)
        · simp at hmem
          exact h2 hmem
      have hnodup' : (rest.map (fun nd => nd.key)).Nodup := hn.2
      rw [ih (acc ++ [(nd.key, nd)]) hfresh' hnodup']
      simp

theorem nodeMap_eq (nodes : List GenreComboNode)
    (h : (nodes.map (fun nd => nd.key)).Nodup) :
    nodes.foldl (fun m nd => setFirst m nd.key nd) [] =
      nodes.map (fun nd => (nd.key, nd)) := by
  simpa using nodeMap_eq_aux nodes [] (by simp [keysOf]) h

theorem foldl_max_nonneg (l : List GenreComboNode)
    (f : GenreComboNode → ℝ) :
    0 ≤ l.foldl (fun mx nd => max mx (f nd)) 0 := by
  suffices hgen : ∀ init : ℝ, 0 ≤ init →
      0 ≤ l.foldl (fun mx nd => max mx (f nd)) init from
    hgen 0 (le_refl 0)
  induction l with
  | nil => intro init h; exact h
  | cons nd rest ih =>
      intro init h
      exact ih _ (le_trans h (le_max_left _ _))

/-! ### Claim theorem: degenerate inputs (C9) -/
/-- C9: on every degenerate input (empty collection, no genre labels, or
all tracks collapsing into one combo) `calculateCircleGraphLayout` returns
a well-formed layout: the node map holds exactly the nodes keyed by their
combo key, the total dimensions are non-negative, and the empty input gives
the empty layout.  (The embedding is a total function, mirroring that the
source cannot raise on these inputs.) -/
theorem C9_degenerate_layout (tracks : List Track)
    (hd : DegenerateInput tracks) :
    (calculateCircleGraphLayout tracks).nodeMap =
      (calculateCircleGraphLayout tracks).nodes.map (fun nd => (nd.key, nd)) ∧
    0 ≤ (calculateCircleGraphLayout tracks).totalWidth ∧
    0 ≤ (calculateCircleGraphLayout tracks).totalHeight ∧
    (tracks = [] → (calculateCircleGraphLayout tracks).nodes = [] ∧
      (calculateCircleGraphLayout tracks).edges = [] ∧
      (calculateCircleGraphLayout tracks).totalWidth = 0 ∧
      (calculateCircleGraphLayout tracks).totalHeight = 0) := by
  refine ⟨?_, ?_, ?_, ?_⟩
  · have hnodup := layout_keys_nodup tracks
    rw [layout_nodes_eq] at hnodup
    simp only [calculateCircleGraphLayout]
    exact nodeMap_eq _ hnodup
  · simp only [calculateCircleGraphLayout]
    exact foldl_max_nonneg _ _
  · simp only [calculateCircleGraphLayout]
    exact foldl_max_nonneg _ _
  · intro htr
    subst htr
    exact ⟨rfl, rfl, rfl, rfl⟩

/-- Witness for C9 at the empty collection. -/
theorem C9_degenerate_layout_witness :
    DegenerateInput ([] : List Track) ∧
    (calculateCircleGraphLayout ([] : List Track)).nodeMap =
      (calculateCircleGraphLayout ([] : List Track)).nodes.map
        (fun nd => (nd.key, nd)) ∧
    (calculateCircleGraphLayout ([] : List Track)).nodes = [] ∧
    (calculateCircleGraphLayout ([] : List Track)).edges = [] :=
  ⟨Or.inl rfl,
    (C9_degenerate_layout [] (Or.inl rfl)).1,
    ((C9_degenerate_layout [] (Or.inl rfl)).2.2.2 rfl).1,
    ((C9_degenerate_layout [] (Or.inl rfl)).2.2.2 rfl).2.1⟩

theorem getA_mem {α : Type} {m : List (String × α)} {k : String} {v : α}
    (h : getA m k = some v) : (k, v) ∈ m := by
  induction m with
  | nil => simp [getA] at h
  | cons hd tl ih =>
      obtain ⟨hk, hv⟩ := hd
      by_cases hkk : hk = k
      · subst hkk
        simp only [getA, eq_self_iff_true, ite_true, Option.some.injEq] at h
        subst h
        exact List.mem_cons_self _ _
      · simp only [getA, if_neg hkk] at h
        exact List.mem_cons_of_mem _ (ih h)

/-! ### Supporting lemmas for the edge claim (C4): splitting and canonical
edge keys -/
theorem splitList_ne_nil (sep : Char) (cs : List Char) :
    splitList sep cs ≠ [] := by
  cases cs with
  | nil => simp [splitList]
  | cons c cs' =>
      simp only [splitList]
      cases h : splitList sep cs' with
      | nil => simp
      | cons hd tl =>
          by_cases hc : c = sep
          · simp [hc]
          · simp [hc]

theorem splitList_no_sep {sep : Char} {cs : List Char} (h : sep ∉ cs) :
    splitList sep cs = [cs] := by
  induction cs with
  | nil => rfl
  | cons c cs' ih =>
      have hc : ¬ c = sep := fun hh => h (hh ▸ List.mem_cons_self c cs')
      have h' : sep ∉ cs' := fun hh => h (List.mem_cons_of_mem _ hh)
      simp only [splitList, List.append_eq, ih h']
      rw [if_neg hc]

theorem splitList_append {sep : Char} {xs : List Char} (ys : List Char)
    (h : sep ∉ xs) :
    splitList sep (xs ++ sep :: ys) = xs :: splitList sep ys := by
  induction xs with
  | nil =>
      simp only [List.nil_append, splitList]
      cases hys : splitList sep ys with
      | nil => exact absurd hys (splitList_ne_nil sep ys)
      | cons hd tl => simp
  | cons x xs' ih =>
      have hx : ¬ x = sep := fun hh => h (hh ▸ List.mem_cons_self x xs')
      have h' : sep ∉ xs' := fun hh => h (List.mem_cons_of_mem _ hh)
      simp only [List.cons_append, splitList, List.append_eq, ih h']
      rw [if_neg hx]

theorem jsSplit_pipe (a b : String) (ha : pipeFree a) (hb : pipeFree b) :
    jsSplit (a ++ "|" ++ b) '|' = [a, b] := by
  unfold jsSplit
  have hpipe : ("|" : String).data = ['|'] := by decide
  have hdata : (a ++ "|" ++ b).data = a.data ++ '|' :: b.data := by
    rw [String.data_append, String.data_append, hpipe,
      List.append_assoc]
    rfl
  rw [hdata, splitList_append b.data ha, splitList_no_sep hb]
  rfl

theorem string_eq_of_data_eq : ∀ {a b : String}, a.data = b.data → a = b
  | ⟨_⟩, ⟨_⟩, h => congrArg String.mk h

theorem string_ne_of_data_ne {a b : String} (h : a ≠ b) : a.data ≠ b.data :=
  fun hd => h (string_eq_of_data_eq hd)

theorem jsLt_or_jsLt {a b : String} (h : a ≠ b) : jsLt a b ∨ jsLt b a := by
  rcases lt_trichotomy a.data b.data with hlt | heq | hgt
  · exact Or.inl hlt
  · exact absurd heq (string_ne_of_data_ne h)
  · exact Or.inr hgt

theorem jsLt_asymm {a b : String} (h : jsLt a b) : ¬ jsLt b a :=
  lt_asymm h

theorem canonEdgeKey_comm {a b : String} (hne : a ≠ b) :
    canonEdgeKey a b = canonEdgeKey b a := by
  unfold canonEdgeKey
  rcases jsLt_or_jsLt hne with h | h
  · rw [if_pos h, if_neg (jsLt_asymm h)]
  · rw [if_neg (jsLt_asymm h), if_pos h]

theorem canonEdgeKey_split (a b : String) (ha : pipeFree a)
    (hb : pipeFree b) :
    jsSplit (canonEdgeKey a b) '|' = if jsLt a b then [a, b] else [b, a] := by
  unfold canonEdgeKey
  by_cases h : jsLt a b
  · rw [if_pos h, if_pos h, jsSplit_pipe a b ha hb]
  · rw [if_neg h, if_neg h, jsSplit_pipe b a hb ha]

theorem canonEdgeKey_inj {a b c d : String} (hab : a ≠ b) (hcd : c ≠ d)
    (ha : pipeFree a) (hb : pipeFree b) (hc : pipeFree c) (hd : pipeFree d)
    (h : canonEdgeKey a b = canonEdgeKey c d) :
    (a = c ∧ b = d) ∨ (a = d ∧ b = c) := by
  have hs := congrArg (fun s => jsSplit s '|') h
  dsimp only at hs
  rw [canonEdgeKey_split a b ha hb, canonEdgeKey_split c d hc hd] at hs
  by_cases h1 : jsLt a b <;> by_cases h2 : jsLt c d
  · rw [if_pos h1, if_pos h2] at hs
    simp only [List.cons.injEq, and_true] at hs
    exact Or.inl ⟨hs.1, hs.2⟩
  · rw [if_pos h1, if_neg h2] at hs
    simp only [List.cons.injEq, and_true] at hs
    exact Or.inr ⟨hs.1, hs.2⟩
  · rw [if_neg h1, if_pos h2] at hs
    simp only [List.cons.injEq, and_true] at hs
    exact Or.inr ⟨hs.2, hs.1⟩
  · rw [if_neg h1, if_neg h2] at hs
    simp only [List.cons.injEq, and_true] at hs
    exact Or.inl ⟨hs.2, hs.1⟩

theorem mem_getA_of_nodup {α : Type} {m : List (String × α)} {k : String}
    {v : α} (hnd : (keysOf m).Nodup) (h : (k, v) ∈ m) :
    getA m k = some v := by
  induction m with
  | nil => simp at h
  | cons hd tl ih =>
      obtain ⟨hk, hv⟩ := hd
      simp only [keysOf, List.map_cons, List.nodup_cons] at hnd
      rcases List.mem_cons.mp h with heq | hmem
      · obtain ⟨h1, h2⟩ := Prod.ext_iff.mp heq
        dsimp only at h1 h2
        subst h1
        subst h2
        simp [getA]
      · have hne : hk ≠ k := by
          intro hc
          exact hnd.1 (hc ▸ (List.mem_map_of_mem (fun e => e.1) hmem))
        simp only [getA, if_neg hne]
        exact ih (by simpa [keysOf] using hnd.2) hmem

theorem giList_giAdd (m : List (String × List String)) (g k g' : String) :
    giList (giAdd m g k) g' =
      if g' = g then giList m g' ++ [k] else giList m g' := by
  unfold giAdd
  cases hget : getA m g with
  | some l =>
      by_cases hg : g' = g
      · subst hg
        rw [if_pos rfl]
        unfold giList
        rw [getA_setFirst_self, hget]
        rfl
      · rw [if_neg hg]
        unfold giList
        rw [getA_setFirst_ne m (fun hc => hg hc.symm) _]
  | none =>
      by_cases hg : g' = g
      · subst hg
        rw [if_pos rfl]
        unfold giList
        rw [getA_setFirst_self, hget]
        rfl
      · rw [if_neg hg]
        unfold giList
        rw [getA_setFirst_ne m (fun hc => hg hc.symm) _]

theorem giList_genresFold (k : String) :
    ∀ (gl : List String), gl.Nodup →
    ∀ (m : List (String × List String)) (g' : String),
    giList (gl.foldl (fun m g => giAdd m g k) m) g' =
      giList m g' ++ (if g' ∈ gl then [k] else []) := by
  intro gl
  induction gl with
  | nil => intro _ m g'; simp
  | cons g rest ih =>
      intro hnd m g'
      obtain ⟨hg, hrest⟩ := List.nodup_cons.mp hnd
      simp only [List.foldl_cons]
      rw [ih hrest, giList_giAdd]
      by_cases hgg : g' = g
      · subst hgg
        rw [if_pos rfl, if_neg (fun hc => hg hc),
          if_pos (List.mem_cons_self g' rest)]
        simp
      · rw [if_neg hgg]
        exact congrArg _
          (if_congr (by simp [List.mem_cons, hgg]) rfl rfl)

theorem giList_buildFrom (g : String) :
    ∀ (nodes : List GenreComboNode), (∀ nd ∈ nodes, nd.genres.Nodup) →
    ∀ m : List (String × List String),
    giList (nodes.foldl (fun m nd =>
      nd.genres.foldl (fun m g => giAdd m g nd.key) m) m) g =
      giList m g ++ keysWith nodes g := by
  intro nodes
  induction nodes with
  | nil => intro _ m; simp [keysWith]
  | cons nd rest ih =>
      intro HG m
      simp only [List.foldl_cons]
      rw [ih (fun x hx => HG x (List.mem_cons_of_mem _ hx))]
      rw [giList_genresFold nd.key nd.genres (HG nd (List.mem_cons_self _ _))]
      unfold keysWith
      by_cases hmem : g ∈ nd.genres
      · rw [if_pos hmem, List.filter_cons_of_pos (by simpa using hmem)]
        simp [List.append_assoc]
      · rw [if_neg hmem, List.filter_cons_of_neg (by simpa using hmem)]
        simp

theorem giList_build (nodes : List GenreComboNode)
    (HG : ∀ nd ∈ nodes, nd.genres.Nodup) (g : String) :
    giList (buildGenreIndex nodes) g = keysWith nodes g := by
  unfold buildGenreIndex
  rw [giList_buildFrom g nodes HG []]
  rfl

theorem giAdd_keys_nodup {m : List (String × List String)}
    (h : (keysOf m).Nodup) (g k : String) :
    (keysOf (giAdd m g k)).Nodup := by
  unfold giAdd
  cases getA m g with
  | some l => exact nodup_keys_setFirst h g _
  | none => exact nodup_keys_setFirst h g _

theorem buildGenreIndex_keys_nodup (nodes : List GenreComboNode) :
    (keysOf (buildGenreIndex nodes)).Nodup := by
  unfold buildGenreIndex
  suffices hgen : ∀ (l : List GenreComboNode)
      (m : List (String × List String)), (keysOf m).Nodup →
      (keysOf (l.foldl (fun m nd =>
        nd.genres.foldl (fun m g => giAdd m g nd.key) m) m)).Nodup by
    exact hgen nodes [] (by simp [keysOf])
  intro l
  induction l with
  | nil => intro m hm; exact hm
  | cons nd rest ih =>
      intro m hm
      refine ih _ ?_
      suffices hinner : ∀ (gl : List String)
          (m : List (String × List String)), (keysOf m).Nodup →
          (keysOf (gl.foldl (fun m g => giAdd m g nd.key) m)).Nodup by
        exact hinner nd.genres m hm
      intro gl
      induction gl with
      | nil => intro m hm; exact hm
      | cons g grest ihg =>
          intro m hm
          exact ihg _ (giAdd_keys_nodup hm g nd.key)

theorem buildGenreIndex_mem {nodes : List GenreComboNode} {g : String}
    {l : List String} (HG : ∀ nd ∈ nodes, nd.genres.Nodup)
    (h : (g, l) ∈ buildGenreIndex nodes) : l = keysWith nodes g := by
  have hget := mem_getA_of_nodup (buildGenreIndex_keys_nodup nodes) h
  have := giList_build nodes HG g
  unfold giList at this
  rw [hget] at this
  simpa using this

theorem buildGenreIndex_mem_of_ne {nodes : List GenreComboNode} {g : String}
    (HG : ∀ nd ∈ nodes, nd.genres.Nodup) (h : keysWith nodes g ≠ []) :
    (g, keysWith nodes g) ∈ buildGenreIndex nodes := by
  have hchar := giList_build nodes HG g
  unfold giList at hchar
  cases hget : getA (buildGenreIndex nodes) g with
  | none =>
      rw [hget] at hchar
      exact absurd hchar.symm h
  | some l =>
      rw [hget] at hchar
      simp only [Option.getD_some] at hchar
      rw [← hchar]
      exact getA_mem hget

theorem mem_setAdd {s : List String} {g g' : String} :
    g' ∈ setAdd s g ↔ g' ∈ s ∨ g' = g := by
  unfold setAdd
  by_cases h : g ∈ s
  · rw [if_pos h]
    constructor
    · exact Or.inl
    · rintro (hs | rfl)
      · exact hs
      · exact h
  · rw [if_neg h]
    simp [List.mem_append]

theorem emList_emAdd (m : List (String × List String)) (ek g ek' : String) :
    emList (emAdd m ek g) ek' =
      if ek' = ek then setAdd (emList m ek') g else emList m ek' := by
  unfold emAdd
  cases hget : getA m ek with
  | some s =>
      by_cases h : ek' = ek
      · subst h
        rw [if_pos rfl]
        unfold emList
        rw [getA_setFirst_self, hget]
        rfl
      · rw [if_neg h]
        unfold emList
        rw [getA_setFirst_ne m (fun hc => h hc.symm) _]
  | none =>
      by_cases h : ek' = ek
      · subst h
        rw [if_pos rfl]
        unfold emList
        rw [getA_setFirst_self, hget]
        simp [setAdd]
  
      · rw [if_neg h]
        unfold emList
        rw [getA_setFirst_ne m (fun hc => h hc.symm) _]

theorem mem_emList_emAdd {m : List (String × List String)}
    {ek g ek' g' : String} :
    g' ∈ emList (emAdd m ek g) ek' ↔
      g' ∈ emList m ek' ∨ (ek' = ek ∧ g' = g) := by
  rw [emList_emAdd]
  by_cases h : ek' = ek
  · rw [if_pos h, mem_setAdd]
    simp [h]
  · rw [if_neg h]
    simp [h]

theorem mem_emList_pairsFold {gg : String} :
    ∀ (ps : List (String × String)) (m : List (String × List String))
      (ek' g' : String),
    g' ∈ emList (ps.foldl (fun m p => emAdd m (canonEdgeKey p.1 p.2) gg) m) ek'
      ↔ g' ∈ emList m ek' ∨
        (g' = gg ∧ ∃ p ∈ ps, canonEdgeKey p.1 p.2 = ek') := by
  intro ps
  induction ps with
  | nil => intro m ek' g'; simp
  | cons p rest ih =>
      intro m ek' g'
      simp only [List.foldl_cons]
      rw [ih, mem_emList_emAdd]
      constructor
      · rintro ((hmem | ⟨hek, hg⟩) | ⟨hg, q, hq, hcq⟩)
        · exact Or.inl hmem
        · exact Or.inr ⟨hg, p, List.mem_cons_self _ _, hek.symm⟩
        · exact Or.inr ⟨hg, q, List.mem_cons_of_mem _ hq, hcq⟩
      · rintro (hmem | ⟨hg, q, hq, hcq⟩)
        · exact Or.inl (Or.inl hmem)
        · rcases List.mem_cons.mp hq with rfl | hq'
          · exact Or.inl (Or.inr ⟨hcq.symm, hg⟩)
          · exact Or.inr ⟨hg, q, hq', hcq⟩

theorem mem_emList_build :
    ∀ (gi : List (String × List String)) (m : List (String × List String))
      (ek g' : String),
    g' ∈ emList (gi.foldl (fun m e =>
        (pairsOf e.2).foldl (fun m p => emAdd m (canonEdgeKey p.1 p.2) e.1) m)
      m) ek
      ↔ g' ∈ emList m ek ∨
        ∃ e ∈ gi, g' = e.1 ∧ ∃ p ∈ pairsOf e.2, canonEdgeKey p.1 p.2 = ek := by
  intro gi
  induction gi with
  | nil => intro m ek g'; simp
  | cons e rest ih =>
      intro m ek g'
      simp only [List.foldl_cons]
      rw [ih, mem_emList_pairsFold]
      constructor
      · rintro ((hmem | ⟨hg, p, hp, hcp⟩) | ⟨f, hf, hgf, p, hp, hcp⟩)
        · exact Or.inl hmem
        · exact Or.inr ⟨e, List.mem_cons_self _ _, hg, p, hp, hcp⟩
        · exact Or.inr ⟨f, List.mem_cons_of_mem _ hf, hgf, p, hp, hcp⟩
      · rintro (hmem | ⟨f, hf, hgf, p, hp, hcp⟩)
        · exact Or.inl (Or.inl hmem)
        · rcases List.mem_cons.mp hf with rfl | hf'
          · exact Or.inl (Or.inr ⟨hgf, p, hp, hcp⟩)
          · exact Or.inr ⟨f, hf', hgf, p, hp, hcp⟩

theorem mem_emList_buildEdgeMap {gi : List (String × List String)}
    {ek g' : String} :
    g' ∈ emList (buildEdgeMap gi) ek ↔
      ∃ e ∈ gi, g' = e.1 ∧ ∃ p ∈ pairsOf e.2, canonEdgeKey p.1 p.2 = ek := by
  unfold buildEdgeMap
  rw [mem_emList_build]
  simp [emList, getA]

theorem emAdd_keys_nodup {m : List (String × List String)}
    (h : (keysOf m).Nodup) (ek g : String) :
    (keysOf (emAdd m ek g)).Nodup := by
  unfold emAdd
  cases getA m ek with
  | some s => exact nodup_keys_setFirst h ek _
  | none => exact nodup_keys_setFirst h ek _

theorem buildEdgeMap_keys_nodup (gi : List (String × List String)) :
    (keysOf (buildEdgeMap gi)).Nodup := by
  unfold buildEdgeMap
  suffices hgen : ∀ (l : List (String × List String))
      (m : List (String × List String)), (keysOf m).Nodup →
      (keysOf (l.foldl (fun m e =>
        (pairsOf e.2).foldl (fun m p => emAdd m (canonEdgeKey p.1 p.2) e.1) m)
        m)).Nodup by
    exact hgen gi [] (by simp [keysOf])
  intro l
  induction l with
  | nil => intro m hm; exact hm
  | cons e rest ih =>
      intro m hm
      refine ih _ ?_
      suffices hinner : ∀ (ps : List (String × String))
          (m : List (String × List String)), (keysOf m).Nodup →
          (keysOf (ps.foldl (fun m p =>
            emAdd m (canonEdgeKey p.1 p.2) e.1) m)).Nodup by
        exact hinner (pairsOf e.2) m hm
      intro ps
      induction ps with
      | nil => intro m hm; exact hm
      | cons p prest ihp =>
          intro m hm
          exact ihp _ (emAdd_keys_nodup hm _ _)

theorem setAdd_ne_nil (s : List String) (g : String) : setAdd s g ≠ [] := by
  unfold setAdd
  by_cases hg : g ∈ s
  · rw [if_pos hg]
    intro hc
    rw [hc] at hg
    simp at hg
  · rw [if_neg hg]
    simp

theorem emAdd_values_ne {m : List (String × List String)}
    (h : ∀ e ∈ m, e.2 ≠ []) (ek g : String) :
    ∀ e ∈ emAdd m ek g, e.2 ≠ [] := by
  unfold emAdd
  cases hget : getA m ek with
  | some s =>
      rintro ⟨k', v'⟩ hmem
      rcases mem_setFirst hmem with ⟨hk, hv⟩ | hold
      · dsimp only
        rw [hv]
        exact setAdd_ne_nil s g
      · exact h _ hold
  | none =>
      rintro ⟨k', v'⟩ hmem
      rcases mem_setFirst hmem with ⟨hk, hv⟩ | hold
      · dsimp only
        rw [hv]
        simp
      · exact h _ hold

theorem buildEdgeMap_values_ne (gi : List (String × List String)) :
    ∀ e ∈ buildEdgeMap gi, e.2 ≠ [] := by
  unfold buildEdgeMap
  suffices hgen : ∀ (l : List (String × List String))
      (m : List (String × List String)), (∀ e ∈ m, e.2 ≠ []) →
      ∀ e ∈ (l.foldl (fun m e =>
        (pairsOf e.2).foldl (fun m p => emAdd m (canonEdgeKey p.1 p.2) e.1) m)
        m), e.2 ≠ [] by
    exact hgen gi [] (by simp)
  intro l
  induction l with
  | nil => intro m hm; exact hm
  | cons e rest ih =>
      intro m hm
      refine ih _ ?_
      suffices hinner : ∀ (ps : List (String × String))
          (m : List (String × List String)), (∀ f ∈ m, f.2 ≠ []) →
          ∀ f ∈ (ps.foldl (fun m p =>
            emAdd m (canonEdgeKey p.1 p.2) e.1) m), f.2 ≠ [] by
        exact hinner (pairsOf e.2) m hm
      intro ps
      induction ps with
      | nil => intro m hm; exact hm
      | cons p prest ihp =>
          intro m hm
          exact ihp _ (emAdd_values_ne hm _ _)

theorem mem_pairsOf_mem : ∀ {l : List String} {p : String × String},
    p ∈ pairsOf l → p.1 ∈ l ∧ p.2 ∈ l := by
  intro l
  induction l with
  | nil => intro p hp; simp [pairsOf] at hp
  | cons k rest ih =>
      intro p hp
      simp only [pairsOf, List.mem_append, List.mem_map] at hp
      rcases hp with ⟨q, hq, rfl⟩ | hp
      · exact ⟨List.mem_cons_self _ _, List.mem_cons_of_mem _ hq⟩
      · obtain ⟨h1, h2⟩ := ih hp
        exact ⟨List.mem_cons_of_mem _ h1, List.mem_cons_of_mem _ h2⟩

theorem mem_pairsOf_ne : ∀ {l : List String}, l.Nodup →
    ∀ {p : String × String}, p ∈ pairsOf l → p.1 ≠ p.2 := by
  intro l
  induction l with
  | nil => intro _ p hp; simp [pairsOf] at hp
  | cons k rest ih =>
      intro hnd p hp
      obtain ⟨hk, hrest⟩ := List.nodup_cons.mp hnd
      simp only [pairsOf, List.mem_append, List.mem_map] at hp
      rcases hp with ⟨q, hq, rfl⟩ | hp
      · intro hc
        dsimp only at hc
        exact hk (hc ▸ hq)
      · exact ih hrest hp

theorem pairsOf_exists : ∀ {l : List String} {a b : String},
    a ∈ l → b ∈ l → a ≠ b →
    ∃ p ∈ pairsOf l, (p.1 = a ∧ p.2 = b) ∨ (p.1 = b ∧ p.2 = a) := by
  intro l
  induction l with
  | nil => intro a b ha; simp at ha
  | cons k rest ih =>
      intro a b ha hb hne
      rcases List.mem_cons.mp ha with rfl | ha'
      · rcases List.mem_cons.mp hb with rfl | hb'
        · exact absurd rfl hne
        · refine ⟨(a, b), ?_, Or.inl ⟨rfl, rfl⟩⟩
          simp only [pairsOf, List.mem_append, List.mem_map]
          exact Or.inl ⟨b, hb', rfl⟩
      · rcases List.mem_cons.mp hb with rfl | hb'
        · refine ⟨(b, a), ?_, Or.inr ⟨rfl, rfl⟩⟩
          simp only [pairsOf, List.mem_append, List.mem_map]
          exact Or.inl ⟨a, ha', rfl⟩
        · obtain ⟨p, hp, hor⟩ := ih ha' hb' hne
          refine ⟨p, ?_, hor⟩
          simp only [pairsOf, List.mem_append]
          exact Or.inr hp

theorem mem_keysWith {nodes : List GenreComboNode} {g k : String} :
    k ∈ keysWith nodes g ↔ ∃ nd ∈ nodes, nd.key = k ∧ g ∈ nd.genres := by
  unfold keysWith
  simp only [List.mem_map, List.mem_filter, decide_eq_true_eq]
  constructor
  · rintro ⟨nd, ⟨hnd, hg⟩, rfl⟩
    exact ⟨nd, hnd, rfl, hg⟩
  · rintro ⟨nd, hnd, rfl, hg⟩
    exact ⟨nd, ⟨hnd, hg⟩, rfl⟩

theorem keysWith_nodup {nodes : List GenreComboNode}
    (HK : (nodes.map (fun nd => nd.key)).Nodup) (g : String) :
    (keysWith nodes g).Nodup := by
  unfold keysWith
  exact List.Nodup.sublist
    (List.Sublist.map _ (List.filter_sublist nodes)) HK

theorem key_unique {nodes : List GenreComboNode}
    (HK : (nodes.map (fun nd => nd.key)).Nodup) {A B : GenreComboNode}
    (hA : A ∈ nodes) (hB : B ∈ nodes) (h : A.key = B.key) : A = B :=
  List.inj_on_of_nodup_map HK hA hB h

theorem bem_entry_shape {nodes : List GenreComboNode}
    (HK : (nodes.map (fun nd => nd.key)).Nodup)
    (HG : ∀ nd ∈ nodes, nd.genres.Nodup)
    (HP : ∀ nd ∈ nodes, pipeFree nd.key)
    {ek : String} {s : List String}
    (hmem : (ek, s) ∈ buildEdgeMap (buildGenreIndex nodes)) :
    ∃ A ∈ nodes, ∃ B ∈ nodes, A.key ≠ B.key ∧
      ek = canonEdgeKey A.key B.key ∧
      jsSplit ek '|' = [A.key, B.key] ∧
      s ≠ [] ∧
      ∀ g, (g ∈ s ↔ g ∈ A.genres ∧ g ∈ B.genres) := by
  have hsne : s ≠ [] :=
    buildEdgeMap_values_ne (buildGenreIndex nodes) (ek, s) hmem
  have hget := mem_getA_of_nodup
    (buildEdgeMap_keys_nodup (buildGenreIndex nodes)) hmem
  have hemlist : emList (buildEdgeMap (buildGenreIndex nodes)) ek = s := by
    unfold emList
    rw [hget]
    rfl
  obtain ⟨g0, hg0⟩ := List.exists_mem_of_ne_nil s hsne
  have hg0m : g0 ∈ emList (buildEdgeMap (buildGenreIndex nodes)) ek := by
    rw [hemlist]; exact hg0
  rw [mem_emList_buildEdgeMap] at hg0m
  obtain ⟨⟨eg, el⟩, hf, hgf, p, hp, hcp⟩ := hg0m
  dsimp only at hgf
  subst hgf
  have hel : el = keysWith nodes g0 := buildGenreIndex_mem HG hf
  subst hel
  obtain ⟨hp1, hp2⟩ := mem_pairsOf_mem hp
  have hpne : p.1 ≠ p.2 := mem_pairsOf_ne (keysWith_nodup HK g0) hp
  obtain ⟨A0, hA0, hA0k, hA0g⟩ := mem_keysWith.mp hp1
  obtain ⟨B0, hB0, hB0k, hB0g⟩ := mem_keysWith.mp hp2
  have hPA0 : pipeFree A0.key := HP A0 hA0
  have hPB0 : pipeFree B0.key := HP B0 hB0
  have hmain : ∃ A ∈ nodes, ∃ B ∈ nodes, A.key ≠ B.key ∧
      ek = canonEdgeKey A.key B.key ∧ jsSplit ek '|' = [A.key, B.key] := by
    by_cases hlt : jsLt p.1 p.2
    · refine ⟨A0, hA0, B0, hB0, ?_, ?_, ?_⟩
      · rw [hA0k, hB0k]; exact hpne
      · rw [hA0k, hB0k, ← hcp]
      · rw [hA0k, hB0k, ← hcp,
          canonEdgeKey_split p.1 p.2 (hA0k ▸ hPA0) (hB0k ▸ hPB0), if_pos hlt]
    · have hlt' : jsLt p.2 p.1 := (jsLt_or_jsLt hpne).resolve_left hlt
      refine ⟨B0, hB0, A0, hA0, ?_, ?_, ?_⟩
      · rw [hA0k, hB0k]; exact fun hc => hpne hc.symm
      · rw [hA0k, hB0k, ← hcp,
          canonEdgeKey_comm (fun hc => hpne hc.symm)]
      · rw [hA0k, hB0k, ← hcp,
          canonEdgeKey_split p.1 p.2 (hA0k ▸ hPA0) (hB0k ▸ hPB0), if_neg hlt]
  obtain ⟨A, hA, B, hB, hABne, hekc, hsplit⟩ := hmain
  refine ⟨A, hA, B, hB, hABne, hekc, hsplit, hsne, ?_⟩
  intro g
  constructor
  · intro hgs
    have hgm : g ∈ emList (buildEdgeMap (buildGenreIndex nodes)) ek := by
      rw [hemlist]; exact hgs
    rw [mem_emList_buildEdgeMap] at hgm
    obtain ⟨⟨fg, fl⟩, hf', hgf', p', hp', hcp'⟩ := hgm
    dsimp only at hgf'
    subst hgf'
    have hfl : fl = keysWith nodes g := buildGenreIndex_mem HG hf'
    subst hfl
    obtain ⟨hq1, hq2⟩ := mem_pairsOf_mem hp'
    have hqne : p'.1 ≠ p'.2 := mem_pairsOf_ne (keysWith_nodup HK g) hp'
    obtain ⟨C, hC, hCk, hCg⟩ := mem_keysWith.mp hq1
    obtain ⟨D, hD, hDk, hDg⟩ := mem_keysWith.mp hq2
    have hinj := canonEdgeKey_inj hqne hABne
      (hCk ▸ HP C hC) (hDk ▸ HP D hD) (HP A hA) (HP B hB)
      (hcp'.trans hekc)
    have hAg : g ∈ A.genres := by
      rcases hinj with ⟨h1, h2⟩ | ⟨h1, h2⟩
      · have : C = A := key_unique HK hC hA (hCk.trans h1)
        exact this ▸ hCg
      · have : D = A := key_unique HK hD hA (hDk.trans h2)
        exact this ▸ hDg
    have hBg : g ∈ B.genres := by
      rcases hinj with ⟨h1, h2⟩ | ⟨h1, h2⟩
      · have : D = B := key_unique HK hD hB (hDk.trans h2)
        exact this ▸ hDg
      · have : C = B := key_unique HK hC hB (hCk.trans h1)
        exact this ▸ hCg
    exact ⟨hAg, hBg⟩
  · rintro ⟨hgA, hgB⟩
    have hAkw : A.key ∈ keysWith nodes g := mem_keysWith.mpr ⟨A, hA, rfl, hgA⟩
    have hBkw : B.key ∈ keysWith nodes g := mem_keysWith.mpr ⟨B, hB, rfl, hgB⟩
    have hkwne : keysWith nodes g ≠ [] := List.ne_nil_of_mem hAkw
    have hgi : (g, keysWith nodes g) ∈ buildGenreIndex nodes :=
      buildGenreIndex_mem_of_ne HG hkwne
    obtain ⟨p', hp', hor⟩ := pairsOf_exists hAkw hBkw hABne
    have hcanon : canonEdgeKey p'.1 p'.2 = ek := by
      rcases hor with ⟨h1, h2⟩ | ⟨h1, h2⟩
      · rw [h1, h2, ← hekc]
      · rw [h1, h2, canonEdgeKey_comm (fun hc => hABne hc.symm), ← hekc]
    have : g ∈ emList (buildEdgeMap (buildGenreIndex nodes)) ek := by
      rw [mem_emList_buildEdgeMap]
      exact ⟨(g, keysWith nodes g), hgi, rfl, p', hp', hcanon⟩
    rw [hemlist] at this
    exact this

theorem split_fields {l : List String} {a b : String} (h : l = [a, b]) :
    (l[0]?).getD "" = a ∧ (l[1]?).getD "" = b := by
  subst h
  exact ⟨rfl, rfl⟩

theorem mem_computeGenreEdges {nodes : List GenreComboNode} {e : GenreEdge} :
    e ∈ computeGenreEdges nodes ↔
      ∃ ek s, (ek, s) ∈ buildEdgeMap (buildGenreIndex nodes) ∧
        e = { sourceKey := ((jsSplit ek '|')[0]?).getD "",
              targetKey := ((jsSplit ek '|')[1]?).getD "",
              sharedGenres := s } := by
  unfold computeGenreEdges
  rw [List.mem_map]
  constructor
  · rintro ⟨⟨ek, s⟩, hm, rfl⟩
    exact ⟨ek, s, hm, rfl⟩
  · rintro ⟨ek, s, hm, rfl⟩
    exact ⟨(ek, s), hm, rfl⟩

/-- C4 (counterexample): `computeGenreEdges` can emit a self-edge.  On a
single cluster whose genre list contains the same genre twice (which the
pipeline produces, since `pickTopGenres` does not deduplicate), the inverted
index maps the genre to the same cluster key twice, the inner double loop
pairs the key with itself, and the resulting edge has
`sourceKey = targetKey`, contradicting the claimed "no self-edges". -/
theorem C4_counterexample :
    (computeGenreEdges [c4Node]).map
        (fun e => (e.sourceKey, e.targetKey, e.sharedGenres))
      = [("a", "a", ["g"])] ∧
    ∃ e ∈ computeGenreEdges [c4Node], e.sourceKey = e.targetKey :=
  ⟨rfl, ⟨"a", "a", ["g"]⟩, by decide, rfl⟩

/-- C4 (amended): for clusters with pairwise-distinct keys, duplicate-free
genre lists, and keys not containing the separator `|`, `computeGenreEdges`
is correct: every emitted edge joins two distinct clusters of the input,
its shared-genre list is nonempty and holds exactly the genres common to
the two clusters; conversely every pair of distinct clusters sharing a
genre gets an edge; and no unordered pair of endpoints appears twice. -/
theorem C4_amended_edges (nodes : List GenreComboNode)
    (HK : (nodes.map (fun nd => nd.key)).Nodup)
    (HG : ∀ nd ∈ nodes, nd.genres.Nodup)
    (HP : ∀ nd ∈ nodes, pipeFree nd.key) :
    (∀ e ∈ computeGenreEdges nodes, ∃ A ∈ nodes, ∃ B ∈ nodes,
      e.sourceKey = A.key ∧ e.targetKey = B.key ∧ A.key ≠ B.key ∧
      e.sharedGenres ≠ [] ∧
      ∀ g, (g ∈ e.sharedGenres ↔ g ∈ A.genres ∧ g ∈ B.genres)) ∧
    (∀ A ∈ nodes, ∀ B ∈ nodes, A.key ≠ B.key →
      ∀ g, g ∈ A.genres → g ∈ B.genres →
      ∃ e ∈ computeGenreEdges nodes,
        ((e.sourceKey = A.key ∧ e.targetKey = B.key) ∨
         (e.sourceKey = B.key ∧ e.targetKey = A.key)) ∧
        g ∈ e.sharedGenres) ∧
    (computeGenreEdges nodes).Pairwise (fun e1 e2 =>
      ¬ ((e1.sourceKey = e2.sourceKey ∧ e1.targetKey = e2.targetKey) ∨
         (e1.sourceKey = e2.targetKey ∧ e1.targetKey = e2.sourceKey))) := by
  refine ⟨?_, ?_, ?_⟩
  · intro e he
    rw [mem_computeGenreEdges] at he
    obtain ⟨ek, s, hm, rfl⟩ := he
    obtain ⟨A, hA, B, hB, hABne, hek, hsplit, hsne, hshared⟩ :=
      bem_entry_shape HK HG HP hm
    have hf := split_fields hsplit
    exact ⟨A, hA, B, hB, hf.1, hf.2, hABne, hsne, hshared⟩
  · intro A hA B hB hABne g hgA hgB
    have hPA := HP A hA
    have hPB := HP B hB
    have hAkw : A.key ∈ keysWith nodes g :=
      mem_keysWith.mpr ⟨A, hA, rfl, hgA⟩
    have hBkw : B.key ∈ keysWith nodes g :=
      mem_keysWith.mpr ⟨B, hB, rfl, hgB⟩
    have hgi : (g, keysWith nodes g) ∈ buildGenreIndex nodes :=
      buildGenreIndex_mem_of_ne HG (List.ne_nil_of_mem hAkw)
    obtain ⟨p', hp', hor⟩ := pairsOf_exists hAkw hBkw hABne
    have hcanon : canonEdgeKey p'.1 p'.2 = canonEdgeKey A.key B.key := by
      rcases hor with ⟨h1, h2⟩ | ⟨h1, h2⟩
      · rw [h1, h2]
      · rw [h1, h2, canonEdgeKey_comm (fun hc => hABne hc.symm)]
    have hmemg : g ∈ emList (buildEdgeMap (buildGenreIndex nodes))
        (canonEdgeKey A.key B.key) :=
      mem_emList_buildEdgeMap.mpr
        ⟨(g, keysWith nodes g), hgi, rfl, p', hp', hcanon⟩
    unfold emList at hmemg
    cases hget : getA (buildEdgeMap (buildGenreIndex nodes))
        (canonEdgeKey A.key B.key) with
    | none =>
        rw [hget] at hmemg
        simp at hmemg
    | some s =>
        rw [hget] at hmemg
        simp only [Option.getD_some] at hmemg
        have hentry := getA_mem hget
        refine ⟨_, mem_computeGenreEdges.mpr
          ⟨canonEdgeKey A.key B.key, s, hentry, rfl⟩, ?_, hmemg⟩
        have hsp := canonEdgeKey_split A.key B.key hPA hPB
        by_cases hlt : jsLt A.key B.key
        · rw [if_pos hlt] at hsp
          have hf := split_fields hsp
          exact Or.inl ⟨hf.1, hf.2⟩
        · rw [if_neg hlt] at hsp
          have hf := split_fields hsp
          exact Or.inr ⟨hf.1, hf.2⟩
  · have hnd := buildEdgeMap_keys_nodup (buildGenreIndex nodes)
    have hpkeys : (buildEdgeMap (buildGenreIndex nodes)).Pairwise
        (fun a b => a.1 ≠ b.1) := by
      unfold keysOf at hnd
      exact List.pairwise_map.mp hnd
    unfold computeGenreEdges
    refine List.pairwise_map.mpr ?_
    refine List.Pairwise.imp_of_mem (fun {x y} hx hy hne => ?_) hpkeys
    obtain ⟨ek1, s1⟩ := x
    obtain ⟨ek2, s2⟩ := y
    obtain ⟨A1, hA1, B1, hB1, hne1, hek1, hsplit1, -, -⟩ :=
      bem_entry_shape HK HG HP hx
    obtain ⟨A2, hA2, B2, hB2, hne2, hek2, hsplit2, -, -⟩ :=
      bem_entry_shape HK HG HP hy
    have hf1 := split_fields hsplit1
    have hf2 := split_fields hsplit2
    intro hsame
    dsimp only at hsame
    rw [hf1.1, hf1.2, hf2.1, hf2.2] at hsame
    dsimp only at hne
    rcases hsame with ⟨h1, h2⟩ | ⟨h1, h2⟩
    · exact hne (by rw [hek1, hek2, h1, h2])
    · exact hne (by
        rw [hek1, hek2, h1, h2, canonEdgeKey_comm (fun hc => hne2 hc.symm)])

/-- C4 (witness): the amended edge-correctness theorem applied to two
concrete clusters with distinct keys sharing one genre. -/
theorem C4_amended_edges_witness :
    (([c4NodeA, c4NodeB].map (fun nd => nd.key)).Nodup ∧
     (∀ nd ∈ [c4NodeA, c4NodeB], nd.genres.Nodup) ∧
     (∀ nd ∈ [c4NodeA, c4NodeB], pipeFree nd.key)) ∧
    ((∀ e ∈ computeGenreEdges [c4NodeA, c4NodeB],
        ∃ A ∈ [c4NodeA, c4NodeB], ∃ B ∈ [c4NodeA, c4NodeB],
        e.sourceKey = A.key ∧ e.targetKey = B.key ∧ A.key ≠ B.key ∧
        e.sharedGenres ≠ [] ∧
        ∀ g, (g ∈ e.sharedGenres ↔ g ∈ A.genres ∧ g ∈ B.genres)) ∧
      (∀ A ∈ [c4NodeA, c4NodeB], ∀ B ∈ [c4NodeA, c4NodeB], A.key ≠ B.key →
        ∀ g, g ∈ A.genres → g ∈ B.genres →
        ∃ e ∈ computeGenreEdges [c4NodeA, c4NodeB],
          ((e.sourceKey = A.key ∧ e.targetKey = B.key) ∨
           (e.sourceKey = B.key ∧ e.targetKey = A.key)) ∧
          g ∈ e.sharedGenres) ∧
      (computeGenreEdges [c4NodeA, c4NodeB]).Pairwise (fun e1 e2 =>
        ¬ ((e1.sourceKey = e2.sourceKey ∧ e1.targetKey = e2.targetKey) ∨
           (e1.sourceKey = e2.targetKey ∧ e1.targetKey = e2.sourceKey)))) :=
  ⟨⟨by decide, by decide, by decide⟩,
   C4_amended_edges [c4NodeA, c4NodeB] (by decide) (by decide) (by decide)⟩

end NTS

namespace GenreLayout

open NTS

/-! ### Supporting lemmas for the similarity-ordering claim (C10) -/
theorem dotFold_nonneg (b : List (String × ℝ)) (hb : ∀ e ∈ b, 0 ≤ e.2) :
    ∀ (a : List (String × ℝ)), (∀ e ∈ a, 0 ≤ e.2) →
    ∀ acc : ℝ × ℝ, 0 ≤ acc.1 →
    0 ≤ (a.foldl (fun (acc : ℝ × ℝ) e =>
      (acc.1 + (match getA b e.1 with
        | some vB => e.2 * vB
        | none => 0),
       acc.2 + e.2 * e.2)) acc).1 := by
  intro a
  induction a with
  | nil => intro _ acc h; exact h
  | cons e rest ih =>
      intro ha acc hacc
      simp only [List.foldl_cons]
      refine ih (fun x hx => ha x (List.mem_cons_of_mem _ hx)) _ ?_
      have he : 0 ≤ e.2 := ha e (List.mem_cons_self _ _)
      dsimp only
      cases hg : getA b e.1 with
      | none => simpa using hacc
      | some vB =>
          have hvB : 0 ≤ vB := hb (e.1, vB) (getA_mem hg)
          have hmul := mul_nonneg he hvB
          show (0 : ℝ) ≤ acc.1 + e.2 * vB
          linarith

theorem cosineSimilarity_nonneg (a b : List (String × ℝ))
    (ha : ∀ e ∈ a, 0 ≤ e.2) (hb : ∀ e ∈ b, 0 ≤ e.2) :
    0 ≤ cosineSimilarity a b := by
  unfold cosineSimilarity
  dsimp only
  split
  · exact le_refl 0
  · refine div_nonneg ?_ (mul_nonneg (Real.sqrt_nonneg _) (Real.sqrt_nonneg _))
    exact dotFold_nonneg b hb a ha (0, 0) (le_refl 0)

theorem foldPick_none (visited : List String) (current : GenreGroup)
    (hcur : ∀ e ∈ current.tagProfile, 0 ≤ e.2) :
    ∀ (l : List GenreGroup), (∀ g ∈ l, ∀ e ∈ g.tagProfile, 0 ≤ e.2) →
    ∀ acc : ℝ × Option GenreGroup, (acc.2 = none → acc.1 = -1) →
    (l.foldl (pickStep visited current) acc).2 = none →
    acc.2 = none ∧ ∀ c ∈ l, c.genre ∈ visited := by
  intro l
  induction l with
  | nil =>
      intro _ acc _ h
      exact ⟨h, by simp⟩
  | cons c rest ih =>
      intro hl acc hinv h
      simp only [List.foldl_cons] at h
      by_cases hv : c.genre ∈ visited
      · have hstep : pickStep visited current acc c = acc := by
          unfold pickStep
          rw [if_pos hv]
        rw [hstep] at h
        obtain ⟨h1, h2⟩ := ih (fun g hg => hl g (List.mem_cons_of_mem _ hg))
          acc hinv h
        refine ⟨h1, ?_⟩
        intro x hx
        rcases List.mem_cons.mp hx with rfl | hx
        · exact hv
        · exact h2 x hx
      · have hsim : 0 ≤ cosineSimilarity current.tagProfile c.tagProfile :=
          cosineSimilarity_nonneg _ _ hcur (hl c (List.mem_cons_self _ _))
        by_cases h1 : acc.1 < cosineSimilarity current.tagProfile c.tagProfile
        · have hstep : pickStep visited current acc c =
              (cosineSimilarity current.tagProfile c.tagProfile, some c) := by
            unfold pickStep
            rw [if_neg hv]
            dsimp only
            rw [if_pos h1]
          rw [hstep] at h
          obtain ⟨h2, -⟩ := ih (fun g hg => hl g (List.mem_cons_of_mem _ hg))
            _ (fun hh => absurd hh (by simp)) h
          simp at h2
        · have hstep : pickStep visited current acc c = acc := by
            unfold pickStep
            rw [if_neg hv]
            dsimp only
            rw [if_neg h1]
          rw [hstep] at h
          obtain ⟨h2, -⟩ := ih (fun g hg => hl g (List.mem_cons_of_mem _ hg))
            acc hinv h
          have := hinv h2
          rw [this] at h1
          exact absurd (lt_of_lt_of_le (by norm_num) hsim) h1

theorem foldPick_some (visited : List String) (current : GenreGroup)
    (N : List GenreGroup) :
    ∀ (l : List GenreGroup), (∀ c ∈ l, c ∈ N) →
    ∀ acc : ℝ × Option GenreGroup,
    (∀ g, acc.2 = some g → g ∈ N ∧ g.genre ∉ visited) →
    ∀ g, (l.foldl (pickStep visited current) acc).2 = some g →
      g ∈ N ∧ g.genre ∉ visited := by
  intro l
  induction l with
  | nil => intro _ acc hacc g h; exact hacc g h
  | cons c rest ih =>
      intro hl acc hacc g h
      simp only [List.foldl_cons] at h
      refine ih (fun x hx => hl x (List.mem_cons_of_mem _ hx)) _ ?_ g h
      intro g' hg'
      unfold pickStep at hg'
      by_cases hv : c.genre ∈ visited
      · rw [if_pos hv] at hg'
        exact hacc g' hg'
      · rw [if_neg hv] at hg'
        dsimp only at hg'
        by_cases h1 : acc.1 <
            cosineSimilarity current.tagProfile c.tagProfile
        · rw [if_pos h1] at hg'
          simp only [Option.some.injEq] at hg'
          subst hg'
          exact ⟨hl c (List.mem_cons_self _ _), hv⟩
        · rw [if_neg h1] at hg'
          exact hacc g' hg'

theorem pickBest_none (normal : List GenreGroup) (visited : List String)
    (current : GenreGroup)
    (hcur : ∀ e ∈ current.tagProfile, 0 ≤ e.2)
    (hprof : ∀ g ∈ normal, ∀ e ∈ g.tagProfile, 0 ≤ e.2)
    (h : pickBest normal visited current = none) :
    ∀ c ∈ normal, c.genre ∈ visited :=
  (foldPick_none visited current hcur normal hprof (-1, none)
    (fun _ => rfl) h).2

theorem pickBest_some (normal : List GenreGroup) (visited : List String)
    (current : GenreGroup) (g : GenreGroup)
    (h : pickBest normal visited current = some g) :
    g ∈ normal ∧ g.genre ∉ visited :=
  foldPick_some visited current normal normal (fun _ hc => hc) (-1, none)
    (fun g' hg' => by simp at hg') g h

theorem tracksDescLe_total (a b : GenreGroup) :
    tracksDescLe a b ∨ tracksDescLe b a :=
  Nat.le_total b.tracks.length a.tracks.length

theorem tracksDescLe_trans (a b c : GenreGroup) :
    tracksDescLe a b → tracksDescLe b c → tracksDescLe a c :=
  fun h1 h2 => le_trans h2 h1

theorem greedyLoop_spec (normal : List GenreGroup)
    (HN : (normal.map (fun g => g.genre)).Nodup)
    (Hprof : ∀ g ∈ normal, ∀ e ∈ g.tagProfile, 0 ≤ e.2) :
    ∀ (fuel : Nat) (ordered : List GenreGroup) (visited : List String),
    normal.length ≤ fuel + ordered.length →
    (∀ x ∈ ordered, x ∈ normal) →
    (ordered.map (fun g => g.genre)).Nodup →
    (∀ s, s ∈ visited ↔ s ∈ ordered.map (fun g => g.genre)) →
    ordered ≠ [] →
    ∃ suffix, greedyLoop normal fuel ordered visited =
      some (ordered ++ suffix) ∧ (ordered ++ suffix).Perm normal := by
  intro fuel
  induction fuel with
  | zero =>
      intro ordered visited hfuel hsub hnodup hvis hne
      refine ⟨[], ?_, ?_⟩
      · simp only [greedyLoop]
        rw [if_neg (by omega), List.append_nil]
      · rw [List.append_nil]
        have hsp : ordered.Subperm normal :=
          (List.Nodup.of_map _ hnodup).subperm hsub
        exact hsp.perm_of_length_le (by omega)
  | succ fuel ih =>
      intro ordered visited hfuel hsub hnodup hvis hne
      by_cases hlt : ordered.length < normal.length
      · have h1 : ordered.getLast?.isSome :=
          List.getLast?_isSome.mpr hne
        obtain ⟨current, hcur⟩ := Option.isSome_iff_exists.mp h1
        have hcmem : current ∈ normal :=
          hsub current (List.mem_of_mem_getLast? (by simp [hcur]))
        cases hpb : pickBest normal visited current with
        | none =>
            exfalso
            have hall := pickBest_none normal visited current
              (Hprof current hcmem) Hprof hpb
            have hsubnames : normal.map (fun g => g.genre) ⊆
                ordered.map (fun g => g.genre) := by
              intro s hs
              obtain ⟨g, hg, rfl⟩ := List.mem_map.mp hs
              exact (hvis g.genre).mp (hall g hg)
            have := (HN.subperm hsubnames).length_le
            simp only [List.length_map] at this
            omega
        | some g =>
            obtain ⟨hgmem, hgvis⟩ := pickBest_some normal visited current g hpb
            have hgfresh : g.genre ∉ ordered.map (fun x => x.genre) :=
              fun hc => hgvis ((hvis g.genre).mpr hc)
            have hstep : greedyLoop normal (fuel + 1) ordered visited =
                greedyLoop normal fuel (ordered ++ [g])
                  (g.genre :: visited) := by
              simp only [greedyLoop]
              rw [if_pos hlt, hcur]
              dsimp only
              rw [hpb]
            obtain ⟨suffix, heq, hperm⟩ := ih (ordered ++ [g])
              (g.genre :: visited)
              (by simp only [List.length_append, List.length_singleton]; omega)
              (by
                intro x hx
                rcases List.mem_append.mp hx with hx | hx
                · exact hsub x hx
                · rw [List.mem_singleton.mp hx]
                  exact hgmem)
              (by
                simp only [List.map_append, List.map_cons, List.map_nil]
                refine List.nodup_append.mpr ⟨hnodup, List.nodup_singleton _, ?_⟩
                intro s hsmem hs
                have : s = g.genre := by simpa using hs
                exact hgfresh (this ▸ hsmem))
              (by
                intro s
                simp only [List.mem_cons, List.map_append, List.map_cons,
                  List.map_nil, List.mem_append, List.mem_singleton,
                  List.not_mem_nil, or_false]
                rw [hvis s]
                tauto)
              (by simp)
            refine ⟨g :: suffix, ?_, ?_⟩
            · rw [hstep, heq]
              simp
            · have : ordered ++ [g] ++ suffix = ordered ++ g :: suffix := by
                simp
              rw [this] at hperm
              exact hperm
      · refine ⟨[], ?_, ?_⟩
        · simp only [greedyLoop]
          rw [if_neg hlt, List.append_nil]
        · rw [List.append_nil]
          have hsp : ordered.Subperm normal :=
            (List.Nodup.of_map _ hnodup).subperm hsub
          exact hsp.perm_of_length_le (by omega)

/-- C10 fails as stated: with two normal groups sharing one genre name, the
second is forever skipped by the `visited` name set, the `while` loop makes
no progress and the source spins; the embedding returns the `none` stuck
state instead of a permutation. -/
theorem C10_counterexample :
    orderGenresBySimilarity [gDup1, gDup2] = none := rfl

/-- C10 as amended: for genre groups with non-negative tag-profile counts
whose normal (non-reserved) groups carry pairwise-distinct genre names,
`orderGenresBySimilarity` terminates with a permutation of its input, the
reserved (`"other"`/`"uncategorized"`) groups all placed after the normal
groups, and — when a normal group exists — the output starting with a
normal group of maximal track count. -/
theorem C10_amended_similarity_order (groups : List GenreGroup)
    (hnn : ∀ g ∈ groups, ∀ e ∈ g.tagProfile, 0 ≤ e.2)
    (hnodup : ((groups.filter (fun g => !isSpecialG g)).map
      (fun g => g.genre)).Nodup) :
    ∃ l, orderGenresBySimilarity groups = some l ∧
      l.Perm groups ∧
      (∃ pre, l = pre ++ groups.filter (fun g => isSpecialG g) ∧
        pre.Perm (groups.filter (fun g => !isSpecialG g))) ∧
      (groups.filter (fun g => !isSpecialG g) ≠ [] →
        ∃ g0 rest, l = g0 :: rest ∧
          g0 ∈ groups.filter (fun g => !isSpecialG g) ∧
          ∀ g ∈ groups.filter (fun g => !isSpecialG g),
            g.tracks.length ≤ g0.tracks.length) := by
  have hpart : (groups.filter (fun g => isSpecialG g) ++
      groups.filter (fun g => !isSpecialG g)).Perm groups :=
    List.filter_append_perm _ groups
  by_cases h0 : (groups.filter (fun g => !isSpecialG g)).length = 0
  · have hnil : groups.filter (fun g => !isSpecialG g) = [] :=
      List.length_eq_zero.mp h0
    refine ⟨groups.filter (fun g => isSpecialG g), ?_, ?_, ?_, ?_⟩
    · simp only [orderGenresBySimilarity]
      rw [if_pos h0]
    · have := hpart
      rw [hnil, List.append_nil] at this
      exact this
    · exact ⟨[], by simp, by rw [hnil]⟩
    · intro h
      exact absurd hnil h
  · have hpermsort : (sortBy tracksDescLe
        (groups.filter (fun g => !isSpecialG g))).Perm
        (groups.filter (fun g => !isSpecialG g)) :=
      perm_sortBy tracksDescLe _
    cases hs : sortBy tracksDescLe (groups.filter (fun g => !isSpecialG g)) with
    | nil =>
        exfalso
        rw [hs] at hpermsort
        have := hpermsort.length_eq
        simp at this
        omega
    | cons first restS =>
        have hsortmem : ∀ x ∈ first :: restS,
            x ∈ groups.filter (fun g => !isSpecialG g) := by
          intro x hx
          rw [← hs] at hx
          exact hpermsort.mem_iff.mp hx
        have HN : ((first :: restS).map (fun g => g.genre)).Nodup := by
          have : ((first :: restS).map (fun g => g.genre)).Perm
              ((groups.filter (fun g => !isSpecialG g)).map
                (fun g => g.genre)) := by
            rw [← hs]
            exact hpermsort.map _
          exact this.nodup_iff.mpr hnodup
        have Hprof : ∀ g ∈ first :: restS, ∀ e ∈ g.tagProfile, 0 ≤ e.2 := by
          intro g hg
          exact hnn g (List.mem_of_mem_filter (hsortmem g hg))
        obtain ⟨suffix, heq, hperm⟩ := greedyLoop_spec (first :: restS) HN
          Hprof (first :: restS).length [first] [first.genre]
          (by simp)
          (by intro x hx; rw [List.mem_singleton.mp hx]; exact
            List.mem_cons_self _ _)
          (by simp)
          (by intro s; simp)
          (by simp)
        have hres : orderGenresBySimilarity groups =
            some (([first] ++ suffix) ++
              groups.filter (fun g => isSpecialG g)) := by
          simp only [orderGenresBySimilarity]
          rw [if_neg h0, hs]
          dsimp only
          rw [heq]
          rfl
        refine ⟨([first] ++ suffix) ++ groups.filter (fun g => isSpecialG g),
          hres, ?_, ?_, ?_⟩
        · have h1 : ([first] ++ suffix).Perm
              (groups.filter (fun g => !isSpecialG g)) := by
            refine hperm.trans ?_
            rw [← hs]
            exact hpermsort
          have h2 := h1.append_right (groups.filter (fun g => isSpecialG g))
          have h3 : ((groups.filter (fun g => !isSpecialG g)) ++
              groups.filter (fun g => isSpecialG g)).Perm groups :=
            List.perm_append_comm.trans hpart
          exact h2.trans h3
        · refine ⟨[first] ++ suffix, rfl, ?_⟩
          refine hperm.trans ?_
          rw [← hs]
          exact hpermsort
        · intro hne
          refine ⟨first, suffix ++ groups.filter (fun g => isSpecialG g),
            by simp, hsortmem first (List.mem_cons_self _ _), ?_⟩
          intro g hg
          have hgmem : g ∈ first :: restS := by
            rw [← hs]
            exact (perm_sortBy tracksDescLe _).mem_iff.mpr hg
          rcases List.mem_cons.mp hgmem with rfl | hg'
          · exact le_refl _
          · have hpw : (first :: restS).Pairwise tracksDescLe := by
              rw [← hs]
              exact pairwise_sortBy tracksDescLe tracksDescLe_total
                tracksDescLe_trans _
            exact (List.pairwise_cons.mp hpw).1 g hg'

/-- Witness for C10 as amended, at a three-group input. -/
theorem C10_amended_similarity_order_witness :
    (∀ g ∈ [gNormA, gNormB, gOther], ∀ e ∈ g.tagProfile, 0 ≤ e.2) ∧
    ((([gNormA, gNormB, gOther].filter (fun g => !isSpecialG g)).map
      (fun g => g.genre)).Nodup) ∧
    (∃ l, orderGenresBySimilarity [gNormA, gNormB, gOther] = some l ∧
      l.Perm [gNormA, gNormB, gOther] ∧
      (∃ pre, l = pre ++ [gNormA, gNormB, gOther].filter
          (fun g => isSpecialG g) ∧
        pre.Perm ([gNormA, gNormB, gOther].filter
          (fun g => !isSpecialG g))) ∧
      ([gNormA, gNormB, gOther].filter (fun g => !isSpecialG g) ≠ [] →
        ∃ g0 rest, l = g0 :: rest ∧
          g0 ∈ [gNormA, gNormB, gOther].filter (fun g => !isSpecialG g) ∧
          ∀ g ∈ [gNormA, gNormB, gOther].filter (fun g => !isSpecialG g),
            g.tracks.length ≤ g0.tracks.length)) := by
  have h1 : ∀ g ∈ [gNormA, gNormB, gOther], ∀ e ∈ g.tagProfile, 0 ≤ e.2 := by
    intro g hg e he
    fin_cases hg
    · simp only [gNormA, List.mem_singleton] at he
      rw [he]
      norm_num
    · simp only [gNormB, List.mem_singleton] at he
      rw [he]
      norm_num
    · simp only [gOther] at he
      exact absurd he (List.not_mem_nil e)
  have h2 : (([gNormA, gNormB, gOther].filter (fun g => !isSpecialG g)).map
      (fun g => g.genre)).Nodup := by
    have hfil : [gNormA, gNormB, gOther].filter (fun g => !isSpecialG g) =
        [gNormA, gNormB] := rfl
    rw [hfil]
    show (["a", "b"] : List String).Nodup
    decide
  exact ⟨h1, h2, C10_amended_similarity_order [gNormA, gNormB, gOther] h1 h2⟩

end GenreLayout
